import Mathlib

/-!
Verification development for the tree-normalization layer of the
beautifulsoup repository (tree builder contract, node model, strainer,
document assembler, serializer, encoding resolver).

The repository snapshot contains the test suite (`bs4/testing.py`,
`bs4/tests/test_htmlparser.py`, `bs4/tests/test_lxml.py`) and diagnostic
helpers; the core library modules they exercise are not part of the
snapshot.  The definitions below are therefore modelled from the
specification, with the behaviour pinned down by the repository's tests
wherever the tests are explicit about it (the default builder is the
lenient HTMLParser-based one, so the model follows the
`TestHTMLParserTreeBuilder*` classes).
-/

namespace BS

/-- Double-quote character. -/
def dq : Char := Char.ofNat 34

/-- Single-quote (apostrophe) character. -/
def sq : Char := Char.ofNat 39

/-- Modelled from the spec: whitespace characters subject to collapsing
(`collapse consecutive whitespace to one space unless inside a
preserve-whitespace element`): space, newline, tab, carriage return. -/
def isWs (c : Char) : Bool :=
  c.toNat = 32 || c.toNat = 10 || c.toNat = 9 || c.toNat = 13

def isUpperAlpha (c : Char) : Bool := 65 ≤ c.toNat && c.toNat ≤ 90

def isLowerAlpha (c : Char) : Bool := 97 ≤ c.toNat && c.toNat ≤ 122

def isAlphaB (c : Char) : Bool := isUpperAlpha c || isLowerAlpha c

def isDigitB (c : Char) : Bool := 48 ≤ c.toNat && c.toNat ≤ 57

/-- Characters allowed inside a tag or attribute name by the lenient
tokenizer model (`http-equiv` needs the dash). -/
def isNameChar (c : Char) : Bool := isAlphaB c || isDigitB c || c = '-'

/-- Name characters as they appear after case folding. -/
def isLowerNameChar (c : Char) : Bool := isLowerAlpha c || isDigitB c || c = '-'

/-- Case folding of a single character (`tag name (case-folded to
lowercase by policy)`). -/
def lowerChar (c : Char) : Char :=
  if isUpperAlpha c then Char.ofNat (c.toNat + 32) else c

/-- Build a (case-folded) name from raw characters. -/
def mkName (l : List Char) : String := String.mk (l.map lowerChar)

def cons1 (c : Char) (p : List Char × List Char) : List Char × List Char :=
  (c :: p.1, p.2)

/-- Modelled from the spec: the entity forms the serializer emits
(`attribute values escape the ampersand and the quote character …; text
content escapes the ampersand and the angle brackets`), recognized again
on the way in. -/
def entityAt (cs : List Char) : Option (Char × List Char) :=
  if ("amp;".toList).isPrefixOf cs then some ('&', cs.drop 4)
  else if ("lt;".toList).isPrefixOf cs then some ('<', cs.drop 3)
  else if ("gt;".toList).isPrefixOf cs then some ('>', cs.drop 3)
  else if ("quot;".toList).isPrefixOf cs then some (dq, cs.drop 5)
  else none

/-- Modelled from the spec: the lenient tokenizer's text scanner.  It
consumes character data up to the next `<` and decodes the entities of
`entityAt`; the first component is the decoded text, the second the
unconsumed remainder.  Fuel-indexed for structural recursion; callers
supply fuel larger than the input length. -/
def lexTextF : Nat → List Char → List Char × List Char
  | 0, l => ([], l)
  | _ + 1, [] => ([], [])
  | f + 1, c :: cs =>
    if c = '<' then ([], c :: cs)
    else if c = '&' then
      match entityAt cs with
      | some p => cons1 p.1 (lexTextF f p.2)
      | none => cons1 '&' (lexTextF f cs)
    else cons1 c (lexTextF f cs)

def lexText (l : List Char) : List Char × List Char := lexTextF (l.length + 1) l

/-- Modelled from the spec: scanner for a quoted attribute value with
delimiter `q`, decoding entities; `none` when the input ends before the
closing quote (the unterminated tag is then dropped, as the
`test_attribute_value_never_got_closed` test shows). -/
def lexQuotedF : Nat → Char → List Char → Option (List Char × List Char)
  | 0, _, _ => none
  | _ + 1, _, [] => none
  | f + 1, q, c :: cs =>
    if c = q then some ([], cs)
    else if c = '&' then
      match entityAt cs with
      | some p => (lexQuotedF f q p.2).map (fun r => (p.1 :: r.1, r.2))
      | none => (lexQuotedF f q cs).map (fun r => ('&' :: r.1, r.2))
    else (lexQuotedF f q cs).map (fun r => (c :: r.1, r.2))

def lexQuoted (q : Char) (l : List Char) : Option (List Char × List Char) :=
  lexQuotedF (l.length + 1) q l

/-- Characters that may appear in an unquoted attribute value. -/
def isUnquotedValChar (c : Char) : Bool := !isWs c && c != '>'

/-- Modelled from the spec: attribute scanner for the inside of a start
tag.  Returns the attribute list in source order, the self-closing flag
(`<t/>`), and the remainder after `>`; `none` when the input ends inside
the tag (the tag is dropped). -/
def lexAttrsF : Nat → List Char → Option (List (String × Option String) × Bool × List Char)
  | 0, _ => none
  | _ + 1, [] => none
  | f + 1, c :: cs =>
    if c = '>' then some ([], false, cs)
    else if c = '/' then
      match cs with
      | [] => none
      | d :: cs' => if d = '>' then some ([], true, cs') else lexAttrsF f cs
    else if isWs c then lexAttrsF f cs
    else if isNameChar c then
      let nm := mkName ((c :: cs).takeWhile isNameChar)
      let r1 := (c :: cs).dropWhile isNameChar
      let r2 := r1.dropWhile isWs
      match r2 with
      | '=' :: r3 =>
        let r4 := r3.dropWhile isWs
        match r4 with
        | [] => none
        | q :: r5 =>
          if q = dq || q = sq then
            match lexQuoted q r5 with
            | some (v, r6) =>
              (lexAttrsF f r6).map (fun p => ((nm, some (String.mk v)) :: p.1, p.2.1, p.2.2))
            | none => none
          else
            let v := r4.takeWhile isUnquotedValChar
            let r6 := r4.dropWhile isUnquotedValChar
            (lexAttrsF f r6).map (fun p => ((nm, some (String.mk v)) :: p.1, p.2.1, p.2.2))
      | _ =>
        (lexAttrsF f r2).map (fun p => ((nm, none) :: p.1, p.2.1, p.2.2))
    else lexAttrsF f cs

def lexAttrs (l : List Char) : Option (List (String × Option String) × Bool × List Char) :=
  lexAttrsF (l.length + 1) l

/-- Scan up to and over the first occurrence of the delimiter `d`,
returning the characters before it and the remainder after it (at end of
input, everything scanned and an empty remainder). -/
def takeUntilSub (d : List Char) : List Char → List Char × List Char
  | [] => ([], [])
  | c :: cs =>
    if d.isPrefixOf (c :: cs) then ([], (c :: cs).drop d.length)
    else cons1 c (takeUntilSub d cs)

/-- Skip up to and over the next `>`; `none` at end of input. -/
def skipToGt : List Char → Option (List Char)
  | [] => none
  | c :: cs => if c = '>' then some cs else skipToGt cs

/-- Builder events, as in the tree builder contract of the spec
(section 4.4); processing instructions and bare declarations are never
produced by the lenient backend modelled here. -/
inductive Event where
  | startTag : String → List (String × Option String) → Bool → Event
  | endTag : String → Event
  | chars : String → Event
  | comm : String → Event
  | doctypeEv : String → Event
  | cdataEv : String → Event

/-- Tokenizer failure, corresponding to the `HTMLParseError` the
repository's tests expect from the default builder on malformed
declarations and on namespaced doctypes. -/
inductive TokErr where
  | malformedDeclaration

def dashDash : List Char := "--".toList
def dashGt : List Char := "-->".toList
def cdataClose : List Char := "]]>".toList
def doctypeWord : List Char := "DOCTYPE".toList
def cdataOpen : List Char := "[CDATA[".toList

/-- Result of one tokenizer step: a hard failure, the end of the event
stream (possibly with a final event), progress with one event, or
progress with none. -/
inductive StepRes where
  | fail : StepRes
  | fin : List Event → StepRes
  | step : Event → List Char → StepRes
  | skip : List Char → StepRes

/-- A doctype whose root name is namespaced: the first
whitespace-delimited word of the doctype content contains a colon
(`test_namespaced_system_doctype` / `test_namespaced_public_doctype`
pin that the default builder raises `HTMLParseError` on these). -/
def namespacedDoctype (content : List Char) : Bool :=
  (content.takeWhile (fun c => !isWs c)).contains ':'

/-- Modelled from the spec: one step of the lenient HTML tokenizer
driving the builder events (the actual backend module is not in the
snapshot).  As the repository's tests demand, a declaration `<!…>` that
is neither a comment, a doctype, nor a CDATA section fails
(`test_nonsensical_declaration` and friends expect `HTMLParseError`),
and so does a doctype with a namespaced root name
(`test_namespaced_system_doctype`); an input ending inside a tag drops
the unterminated tag; everything else is recovered as text. -/
def tokStep : List Char → StepRes
  | [] => .fin []
  | c :: cs =>
    if c = '<' then
      match cs with
      | [] => .fin [Event.chars (String.mk ['<'])]
      | d :: cs' =>
        if d = '/' then
          match cs' with
          | [] => .fin []
          | e :: cs'' =>
            if isAlphaB e then
              let nm := mkName ((e :: cs'').takeWhile isNameChar)
              let r1 := (e :: cs'').dropWhile isNameChar
              match skipToGt r1 with
              | some rest => .step (Event.endTag nm) rest
              | none => .fin []
            else
              match skipToGt (e :: cs'') with
              | some rest => .skip rest
              | none => .fin []
        else if d = '!' then
          if dashDash.isPrefixOf cs' then
            let p := takeUntilSub dashGt (cs'.drop 2)
            .step (Event.comm (String.mk p.1)) p.2
          else if doctypeWord.isPrefixOf cs' then
            let r1 := (cs'.drop 7).dropWhile isWs
            let content := r1.takeWhile (fun c => c != '>')
            if namespacedDoctype content then .fail
            else
              let r2 := (r1.dropWhile (fun c => c != '>')).drop 1
              .step (Event.doctypeEv (String.mk content)) r2
          else if cdataOpen.isPrefixOf cs' then
            let p := takeUntilSub cdataClose (cs'.drop 7)
            .step (Event.cdataEv (String.mk p.1)) p.2
          else .fail
        else if isAlphaB d then
          let nm := mkName ((d :: cs').takeWhile isNameChar)
          let r1 := (d :: cs').dropWhile isNameChar
          match lexAttrs r1 with
          | some (attrs, sc, rest) => .step (Event.startTag nm attrs sc) rest
          | none => .fin []
        else .step (Event.chars (String.mk ['<'])) cs
    else
      let p := lexText (c :: cs)
      .step (Event.chars (String.mk p.1)) p.2

/-- The tokenizer loop; fuel larger than the input length suffices. -/
def tokenizeF : Nat → List Char → Except TokErr (List Event)
  | 0, _ => .ok []
  | f + 1, l =>
    match tokStep l with
    | .fail => .error TokErr.malformedDeclaration
    | .fin evs => .ok evs
    | .skip rest => tokenizeF f rest
    | .step ev rest => (tokenizeF f rest).map (fun evs => ev :: evs)

def tokenize (l : List Char) : Except TokErr (List Event) := tokenizeF (l.length + 1) l

/-! ## Node model (spec section 3) -/

/-- Modelled from the spec: the tagged union of tree node kinds.  The
`Bool` field of `element` is the `contains_substitutions` flag; the
`is_empty_element` and `preserve_whitespace` flags are the fixed
policies `voidTags` and `preserveTags` applied to the tag name, matching
the observable behaviour of the tests (`<br>foo</br>` keeps its child
and serializes in non-empty form, so emptiness is determined by the
policy together with childlessness). -/
inductive Node where
  | element : String → List (String × Option String) → Bool → List Node → Node
  | text : String → Node
  | comment : String → Node
  | doctype : String → Node
  | cdata : String → Node

/-- Modelled from the spec: the default builder's void-tag policy
(`which tags are void/always-empty`).  The `p` tag is deliberately
absent (`a paragraph tag is never empty-element`), and `link` is absent
because `test_fake_self_closing_tag` for the default builder keeps
`<link>` as a container. -/
def voidTags : List String := ["br", "hr", "img", "input", "meta", "base", "spacer", "frame"]

/-- Modelled from the spec: tags that preserve whitespace verbatim. -/
def preserveTags : List String := ["pre", "textarea"]

/-- A node is an empty-element exactly when it is childless and its name
is in the void-tag policy (`<p/>` is therefore never empty-element). -/
def Node.isEmptyElement : Node → Bool
  | .element nm _ _ ch => ch.isEmpty && voidTags.contains nm
  | _ => false

/-! ## Attributes -/

/-- Strict order on attribute names (alphabetical by character code). -/
def attrLt (a b : String) : Bool := decide (a.toList < b.toList)

/-- Insert an attribute into a name-sorted unique attribute list,
replacing any previous binding of the same name. -/
def insertAttr (kv : String × Option String) :
    List (String × Option String) → List (String × Option String)
  | [] => [kv]
  | a :: rest =>
    if kv.1 = a.1 then kv :: rest
    else if attrLt kv.1 a.1 then kv :: a :: rest
    else a :: insertAttr kv rest

/-- Modelled from the spec: duplicate-attribute resolution for the
default builder.  `test_multiple_values_for_the_same_attribute` shows
the default builder keeps the last occurrence and renders attributes
sorted by name; the element's attribute mapping is kept in that sorted,
unique form. -/
def normalizeAttrs (l : List (String × Option String)) : List (String × Option String) :=
  l.foldl (fun acc kv => insertAttr kv acc) []

/-- Substring occurrence test. -/
def occursSub (d : List Char) : List Char → Bool
  | [] => d.isPrefixOf []
  | c :: cs => d.isPrefixOf (c :: cs) || occursSub d cs

/-- The placeholder stored in place of a declared charset
(`text/html; charset=%SOUP-ENCODING%` in
`test_meta_tag_reflects_current_encoding`). -/
def placeholderCharset : String := "%SOUP-ENCODING%"

def charsetKey : List Char := "charset=".toList

/-- Replace everything after the first `charset=` of a content attribute
with the substitution placeholder. -/
def substCharsetVal (v : String) : String :=
  if occursSub charsetKey v.toList then
    String.mk ((takeUntilSub charsetKey v.toList).1 ++ charsetKey ++ placeholderCharset.toList)
  else v

def lookupAttr (k : String) : List (String × Option String) → Option (Option String)
  | [] => none
  | a :: rest => if a.1 = k then some a.2 else lookupAttr k rest

/-- Does this element declare a charset through a `Content-type` meta
tag? -/
def isCharsetMeta (nm : String) (attrs : List (String × Option String)) : Bool :=
  nm = "meta" &&
  (lookupAttr "http-equiv" attrs == some (some "Content-type")) &&
  (match lookupAttr "content" attrs with
   | some (some v) => occursSub charsetKey v.toList
   | _ => false)

/-- Modelled from the spec: a meta element declaring a charset has the
declared value replaced by the placeholder and is flagged
`contains_substitutions`; all other elements are left alone and
unflagged. -/
def mungeAttrs (nm : String) (attrs : List (String × Option String)) :
    List (String × Option String) × Bool :=
  if isCharsetMeta nm attrs then
    (attrs.map (fun a => if a.1 = "content" then (a.1, a.2.map substCharsetVal) else a), true)
  else (attrs, false)

/-! ## Strainer (spec section 4.3) -/

/-- Modelled from the spec: a match predicate over tag name, attribute
constraints and text content; a `none` constraint always succeeds for
that field. -/
structure Strainer where
  nameC : Option String
  attrsC : List (String × String)
  textC : Option String

/-- Does a tag satisfy the strainer?  All specified fields must match;
a strainer with a text constraint never matches a tag. -/
def Strainer.matchesTag (s : Strainer) (nm : String)
    (attrs : List (String × Option String)) : Bool :=
  (match s.nameC with | none => true | some n => n = nm) &&
  s.attrsC.all (fun kv => lookupAttr kv.1 attrs == some (some kv.2)) &&
  s.textC.isNone

/-- Does a text payload satisfy the strainer? -/
def Strainer.matchesText (s : Strainer) (t : String) : Bool :=
  match s.textC with | none => false | some x => x = t

/-- Strainer matching a tag name exactly. -/
def strainTag (n : String) : Strainer := ⟨some n, [], none⟩

/-! ## Document assembler (spec section 4.5) -/

/-- An open element on the assembler's stack; children accumulate in
reverse order. -/
structure Frame where
  fname : String
  fattrs : List (String × Option String)
  fsub : Bool
  childrenRev : List Node

/-- Modelled from the spec: the assembler's state, an explicit stack of
currently open elements plus the (reversed) top-level content list. -/
structure AsmState where
  stack : List Frame
  rootRev : List Node

def emptyState : AsmState := ⟨[], []⟩

/-- Attach a finished node to the current stack top (or the root when
the stack is empty). -/
def appendNode (st : AsmState) (n : Node) : AsmState :=
  match st.stack with
  | [] => ⟨[], n :: st.rootRev⟩
  | f :: fs => ⟨{ f with childrenRev := n :: f.childrenRev } :: fs, st.rootRev⟩

/-- Turn a closed frame into an element node. -/
def closeFrame (f : Frame) : Node :=
  Node.element f.fname f.fattrs f.fsub f.childrenRev.reverse

/-- Pop and auto-close frames until (and including) one named `nm`; the
caller guarantees one exists. -/
def popToAux (nm : String) : Frame → List Frame → List Node → List Frame × List Node
  | f, [], root => ([], closeFrame f :: root)
  | f, g :: gs, root =>
    let g' := { g with childrenRev := closeFrame f :: g.childrenRev }
    if f.fname = nm then (g' :: gs, root) else popToAux nm g' gs root

/-- Modelled from the spec: close-tag recovery.  If the name matches
nothing on the stack the stray close tag is ignored; otherwise open
elements are popped and auto-closed up the stack until the match. -/
def handleEnd (nm : String) (st : AsmState) : AsmState :=
  match st.stack with
  | [] => st
  | f :: fs =>
    if (st.stack.map Frame.fname).contains nm then
      let p := popToAux nm f fs st.rootRev
      ⟨p.1, p.2⟩
    else st

/-- Are we inside a whitespace-preserving element? -/
def preserving (st : AsmState) : Bool :=
  st.stack.any (fun f => preserveTags.contains f.fname)

/-- Collapse runs of whitespace to a single space. -/
def collapseWs : List Char → List Char
  | [] => []
  | [c] => if isWs c then [' '] else [c]
  | c :: c' :: cs =>
    if isWs c && isWs c' then collapseWs (c' :: cs)
    else (if isWs c then ' ' else c) :: collapseWs (c' :: cs)

/-- Modelled from the spec: the live strainer filter applies to nodes
completed at the top level (`len(self.tagStack) <= 1` in the tests'
terms); a non-matching top-level tag is not created. -/
def strainDropTag (so : Option Strainer) (st : AsmState) (nm : String)
    (attrs : List (String × Option String)) : Bool :=
  match so with
  | none => false
  | some s => st.stack.isEmpty && !(s.matchesTag nm attrs)

/-- A top-level leaf (text, comment, …) is dropped by a strainer unless
its payload satisfies the strainer's text constraint. -/
def strainDropLeaf (so : Option Strainer) (st : AsmState) (payload : String) : Bool :=
  match so with
  | none => false
  | some s => st.stack.isEmpty && !(s.matchesText payload)

/-- Modelled from the spec: `start_element`.  Attributes are resolved
per the duplicate policy, charset-declaring metas are munged and
flagged, a rejected top-level tag is suppressed, and a self-closing
start produces a finished (childless) element at once. -/
def handleStart (so : Option Strainer) (nm : String)
    (rawAttrs : List (String × Option String)) (sc : Bool) (st : AsmState) : AsmState :=
  let m := mungeAttrs nm (normalizeAttrs rawAttrs)
  if strainDropTag so st nm m.1 then st
  else if sc then appendNode st (Node.element nm m.1 m.2 [])
  else ⟨⟨nm, m.1, m.2, []⟩ :: st.stack, st.rootRev⟩

/-- Modelled from the spec: `text` events collapse whitespace unless
inside a preserve-whitespace element, then append a text leaf. -/
def handleText (so : Option Strainer) (s : String) (st : AsmState) : AsmState :=
  let s' := if preserving st then s else String.mk (collapseWs s.toList)
  if strainDropLeaf so st s' then st else appendNode st (Node.text s')

def handleLeaf (so : Option Strainer) (mk : String → Node) (s : String)
    (st : AsmState) : AsmState :=
  if strainDropLeaf so st s then st else appendNode st (mk s)

/-- One step of the document assembler. -/
def processEvent (so : Option Strainer) (st : AsmState) : Event → AsmState
  | .startTag nm attrs sc => handleStart so nm attrs sc st
  | .endTag nm => handleEnd nm st
  | .chars s => handleText so s st
  | .comm s => handleLeaf so Node.comment s st
  | .doctypeEv s => handleLeaf so Node.doctype s st
  | .cdataEv s => handleLeaf so Node.cdata s st

def assembleEvents (so : Option Strainer) (evs : List Event) (st : AsmState) : AsmState :=
  evs.foldl (processEvent so) st

/-- Close every remaining open element, bottom-most last. -/
def closeAllAux : Frame → List Frame → List Node → List Node
  | f, [], root => closeFrame f :: root
  | f, g :: gs, root => closeAllAux { g with childrenRev := closeFrame f :: g.childrenRev } gs root

/-- Modelled from the spec: `end_of_document` auto-closes all remaining
open elements and yields the finished top-level content list. -/
def finalize (st : AsmState) : List Node :=
  match st.stack with
  | [] => st.rootRev.reverse
  | f :: fs => (closeAllAux f fs st.rootRev).reverse

def parseEvents (so : Option Strainer) (evs : List Event) : List Node :=
  finalize (assembleEvents so evs emptyState)

/-! ## Documents and parsing -/

/-- Modelled from the spec: the root document, owning the top-level
content list and recording `original_encoding` (none when the input was
already text). -/
structure Document where
  contents : List Node
  originalEncoding : Option String

/-- Parse already-decoded text with an optional strainer. -/
def parseWith (so : Option Strainer) (l : List Char) : Except TokErr Document :=
  (tokenize l).map (fun evs => ⟨parseEvents so evs, none⟩)

/-- Modelled from the spec: `parse` on text input (no strainer). -/
def parse (s : String) : Except TokErr Document := parseWith none s.toList

/-- Modelled from the spec: `parse` with `parse_only` set. -/
def parseOnly (s : String) (str : Strainer) : Except TokErr Document :=
  parseWith (some str) s.toList

/-! ## Serializer (spec section 4.6) -/

def escTextChar (c : Char) : List Char :=
  if c = '&' then "&amp;".toList
  else if c = '<' then "&lt;".toList
  else if c = '>' then "&gt;".toList
  else [c]

def escAttrChar (c : Char) : List Char :=
  if c = '&' then "&amp;".toList
  else if c = dq then "&quot;".toList
  else [c]

def escListWith (f : Char → List Char) : List Char → List Char
  | [] => []
  | c :: cs => f c ++ escListWith f cs

/-- Text-content escaping: ampersand and angle brackets. -/
def escText (l : List Char) : List Char := escListWith escTextChar l

/-- Attribute-value escaping: ampersand and the double-quote delimiter. -/
def escAttr (l : List Char) : List Char := escListWith escAttrChar l

/-- Replace every occurrence of `d` by `r`. -/
def replaceSubF (r : List Char) (d : List Char) : Nat → List Char → List Char
  | 0, l => l
  | _ + 1, [] => []
  | f + 1, c :: cs =>
    if d.isPrefixOf (c :: cs) then r ++ replaceSubF r d f ((c :: cs).drop d.length)
    else c :: replaceSubF r d f cs

def replaceSub (d r l : List Char) : List Char := replaceSubF r d (l.length + 1) l

/-- An attribute value after the render-time charset substitution (and
nothing else). -/
def rawAttrVal (subEnc : Option String) (v : String) : List Char :=
  match subEnc with
  | some e => replaceSub placeholderCharset.toList e.toList v.toList
  | none => v.toList

/-- The escaped body of a double-quoted attribute value, substituting
the output encoding for the charset placeholder when requested. -/
def attrValChars (subEnc : Option String) (v : String) : List Char :=
  escAttr (rawAttrVal subEnc v)

def escAmpChar (c : Char) : List Char :=
  if c = '&' then "&amp;".toList else [c]

/-- Ampersand-only escaping, used inside single-quoted attribute
values. -/
def escAmp (l : List Char) : List Char := escListWith escAmpChar l

/-- Modelled from the spec and the quoting tests: delimit and escape one
attribute value.  `test_attribute_values_with_nested_quotes_are_left_alone`
pins that a value containing a double quote but no single quote keeps
its double quotes raw inside single-quote delimiters; otherwise the
value is double-quoted, escaping `&` and `"`
(`test_attribute_values_with_double_nested_quotes_get_quoted`,
`test_ampersand_in_attribute_value_gets_quoted`). -/
def quoteAttrVal (subEnc : Option String) (v : String) : List Char :=
  if dq ∈ rawAttrVal subEnc v ∧ ¬ sq ∈ rawAttrVal subEnc v then
    sq :: (escAmp (rawAttrVal subEnc v) ++ [sq])
  else dq :: (attrValChars subEnc v ++ [dq])

/-- Render one attribute: space, name, and the quoted escaped value (no
value part for valueless attributes). -/
def renderAttr (subEnc : Option String) (a : String × Option String) : List Char :=
  ' ' :: a.1.toList ++
    (match a.2 with
     | none => []
     | some v => '=' :: quoteAttrVal subEnc v)

def renderAttrList (subEnc : Option String) : List (String × Option String) → List Char
  | [] => []
  | a :: rest => renderAttr subEnc a ++ renderAttrList subEnc rest

/-- The value part of a rendered attribute (everything after the
name). -/
def valPart (subEnc : Option String) (v : Option String) : List Char :=
  match v with
  | none => []
  | some v => '=' :: quoteAttrVal subEnc v

mutual

/-- Modelled from the spec: the serializer.  Depth-first preorder walk;
empty-element nodes render self-closing; text escapes `& < >`;
attribute values are quoted and escaped per `quoteAttrVal` (double
quotes unless the value holds a double quote and no single quote);
comments, doctypes and CDATA render verbatim inside their delimiters.  When `enc` is given,
elements flagged `contains_substitutions` have the charset placeholder
in their attribute values replaced by the encoding name at render time
only. -/
def renderNode (enc : Option String) : Node → List Char
  | .element nm attrs sub ch =>
    let se := if sub then enc else none
    if ch.isEmpty && voidTags.contains nm then
      '<' :: nm.toList ++ renderAttrList se attrs ++ ['/', '>']
    else
      '<' :: nm.toList ++ renderAttrList se attrs ++ '>' :: renderNodes enc ch ++
        '<' :: '/' :: nm.toList ++ ['>']
  | .text s => escText s.toList
  | .comment s => "<!--".toList ++ s.toList ++ dashGt
  | .doctype s => "<!DOCTYPE ".toList ++ s.toList ++ ['>']
  | .cdata s => "<![CDATA[".toList ++ s.toList ++ cdataClose

def renderNodes (enc : Option String) : List Node → List Char
  | [] => []
  | n :: ns => renderNode enc n ++ renderNodes enc ns

end

mutual

/-- No element in this subtree is flagged `contains_substitutions`. -/
def noSubN : Node → Bool
  | .element _ _ sub ch => !sub && noSubList ch
  | _ => true

def noSubList : List Node → Bool
  | [] => true
  | n :: ns => noSubN n && noSubList ns

end

/-- Modelled from the spec: `decode()`, serialization to text (no
encoding substitution). -/
def Document.decode (d : Document) : String := String.mk (renderNodes none d.contents)

/-- Serialization to text destined for the byte encoding named `enc`
(encoding substitution applied). -/
def Document.encodeChars (d : Document) (enc : String) : List Char :=
  renderNodes (some enc) d.contents

/-! ## Encoding resolver (spec section 4.2) -/

/-- UTF-8 encoding of one character. -/
def utf8Char (c : Char) : List Nat :=
  let n := c.toNat
  if n < 128 then [n]
  else if n < 2048 then [192 + n / 64, 128 + n % 64]
  else if n < 65536 then [224 + n / 4096, 128 + (n / 64) % 64, 128 + n % 64]
  else [240 + n / 262144, 128 + (n / 4096) % 64, 128 + (n / 64) % 64, 128 + n % 64]

def utf8Enc : List Char → List Nat
  | [] => []
  | c :: cs => utf8Char c ++ utf8Enc cs

/-- Strict UTF-8 decoding (used as one fallback candidate). -/
def utf8DecF : Nat → List Nat → Option (List Char)
  | 0, _ => none
  | _ + 1, [] => some []
  | f + 1, b :: bs =>
    if b < 128 then (utf8DecF f bs).map (Char.ofNat b :: ·)
    else if 194 ≤ b && b < 224 then
      match bs with
      | b2 :: bs' =>
        if 128 ≤ b2 && b2 < 192 then
          (utf8DecF f bs').map (Char.ofNat ((b - 192) * 64 + (b2 - 128)) :: ·)
        else none
      | [] => none
    else if 224 ≤ b && b < 240 then
      match bs with
      | b2 :: b3 :: bs' =>
        if 128 ≤ b2 && b2 < 192 && 128 ≤ b3 && b3 < 192 then
          let n := (b - 224) * 4096 + (b2 - 128) * 64 + (b3 - 128)
          if 2048 ≤ n && (n < 55296 || 57344 ≤ n) then
            (utf8DecF f bs').map (Char.ofNat n :: ·)
          else none
        else none
      | _ => none
    else none

def utf8Dec (bs : List Nat) : Option (List Char) := utf8DecF (bs.length + 1) bs

/-- A single-byte decodable encoding with a name (the reference decoder
of the claim). -/
structure Enc where
  encName : String
  decodeByte : Nat → Char

/-- ISO-8859-1, the universal fallback (every byte decodes). -/
def latin1 : Enc := ⟨"iso-8859-1", Char.ofNat⟩

def allAscii (bs : List Nat) : Bool := bs.all (· < 128)

/-- Modelled from the spec: the encoding resolver for raw-byte input.
The explicit override is tried first; otherwise a fixed fallback list
(ASCII, UTF-8, Latin-1 as the universal fallback that never fails).
The byte-order-mark check and meta-charset prefix sniff of the spec are
omitted: no claim exercises them.  The chosen name is recorded as
`original_encoding`. -/
def resolveEncoding (bs : List Nat) (fromEnc : Option Enc) : String × List Char :=
  match fromEnc with
  | some e => (e.encName, bs.map e.decodeByte)
  | none =>
    if allAscii bs then ("ascii", bs.map Char.ofNat)
    else
      match utf8Dec bs with
      | some cs => ("utf-8", cs)
      | none => ("iso-8859-1", bs.map Char.ofNat)

/-- Modelled from the spec: `parse` on raw bytes; the resolved encoding
is recorded on the document. -/
def parseBytes (bs : List Nat) (fromEnc : Option Enc) : Except TokErr Document :=
  let r := resolveEncoding bs fromEnc
  (tokenize r.2).map (fun evs => ⟨parseEvents none evs, some r.1⟩)

/-- Modelled from the spec: `encode()`, serialization to bytes in the
requested output encoding (UTF-8 here), with encoding substitution. -/
def Document.encodeUtf8 (d : Document) : List Nat := utf8Enc (d.encodeChars "utf-8")

/-- The remainder carried by a `step` or `skip` result is a strictly
shorter suffix of the input. -/
def stepOk (l : List Char) : StepRes → Prop
  | .step _ r => r <:+ l ∧ r.length < l.length
  | .skip r => r <:+ l ∧ r.length < l.length
  | _ => True

/-- The input begins with a declaration opener `<!` that is neither a
comment, a doctype, nor a CDATA section. -/
def badDeclAt (l : List Char) : Prop :=
  ∃ t, l = '<' :: '!' :: t ∧ dashDash.isPrefixOf t = false ∧
    doctypeWord.isPrefixOf t = false ∧ cdataOpen.isPrefixOf t = false

/-- The input begins with a doctype whose root name is namespaced. -/
def badDoctypeAt (l : List Char) : Prop :=
  ∃ t, l = '<' :: '!' :: t ∧ doctypeWord.isPrefixOf t = true ∧
    namespacedDoctype (((t.drop 7).dropWhile isWs).takeWhile (fun c => c != '>')) = true

/-- The input begins with one of the two tokenizer failure patterns. -/
def badTokAt (l : List Char) : Prop := badDeclAt l ∨ badDoctypeAt l

/-- Some suffix of the input begins a malformed declaration. -/
def hasBadDecl (l : List Char) : Prop := ∃ s, s <:+ l ∧ badDeclAt s

/-- Some suffix of the input begins a malformed declaration or a
namespaced doctype. -/
def hasBadTok (l : List Char) : Prop := ∃ s, s <:+ l ∧ badTokAt s

/-- Text node kind test. -/
def isTextN : Node → Bool
  | .text _ => true
  | _ => false

mutual

/-- No two adjacent text-node siblings anywhere in the subtree. -/
def noAdjN : Node → Bool
  | .element _ _ _ ch => noAdjL ch
  | _ => true

def noAdjL : List Node → Bool
  | [] => true
  | [n] => noAdjN n
  | n :: m :: ns => !(isTextN n && isTextN m) && noAdjN n && noAdjL (m :: ns)

end

/-- Canonically collapsed whitespace: every whitespace character is a
plain space and no two adjacent characters are both whitespace. -/
def canonWs : List Char → Bool
  | [] => true
  | [c] => !isWs c || c = ' '
  | c :: c2 :: cs => (!isWs c || c = ' ') && !(isWs c && isWs c2) && canonWs (c2 :: cs)

/-- A tag name as the tokenizer produces it: nonempty, a lowercase
letter first, then lowercase name characters. -/
def nameWf (s : String) : Prop :=
  match s.toList with
  | [] => False
  | c :: cs => isLowerAlpha c = true ∧ ∀ x ∈ cs, isLowerNameChar x = true

/-- An attribute name as the tokenizer produces it. -/
def attrNameWf (s : String) : Prop :=
  s.toList ≠ [] ∧ ∀ x ∈ s.toList, isLowerNameChar x = true

/-- The strict order used between attribute entries. -/
def attrR (a b : String × Option String) : Prop := attrLt a.1 b.1 = true

/-- A stored attribute mapping: well-formed names, strictly sorted. -/
def attrsWfP (attrs : List (String × Option String)) : Prop :=
  (∀ a ∈ attrs, attrNameWf a.1) ∧ attrs.Pairwise attrR

mutual

/-- Normal form of parsed nodes (relative to the surrounding
whitespace-preservation context `pw`): names are case-folded and
well-formed, attributes sorted and munge-stable, text is nonempty and
canonically collapsed outside preserving elements, and delimiter
payloads cannot terminate early on reparse. -/
def wfN (pw : Bool) : Node → Prop
  | .element nm attrs sub ch =>
    nameWf nm ∧ attrsWfP attrs ∧ mungeAttrs nm attrs = (attrs, sub) ∧
    wfL (pw || preserveTags.contains nm) ch
  | .text s => s.toList ≠ [] ∧ (pw = true ∨ collapseWs s.toList = s.toList)
  | .comment s => occursSub dashGt s.toList = false
  | .doctype s => (∀ c ∈ s.toList, ¬ c = '>') ∧
      (∀ c t, s.toList = c :: t → isWs c = false) ∧ namespacedDoctype s.toList = false
  | .cdata s => occursSub cdataClose s.toList = false

def wfL (pw : Bool) : List Node → Prop
  | [] => True
  | n :: ns => wfN pw n ∧ wfL pw ns

end

mutual

/-- The builder events a node's serialization tokenizes back to. -/
def eventsOf : Node → List Event
  | .element nm attrs _ ch =>
    if ch.isEmpty && voidTags.contains nm then [Event.startTag nm attrs true]
    else Event.startTag nm attrs false :: eventsOfList ch ++ [Event.endTag nm]
  | .text s => [Event.chars s]
  | .comment s => [Event.comm s]
  | .doctype s => [Event.doctypeEv s]
  | .cdata s => [Event.cdataEv s]

def eventsOfList : List Node → List Event
  | [] => []
  | n :: ns => eventsOf n ++ eventsOfList ns

end

/-- Whether the open-element stack is inside a whitespace-preserving
element (agrees with `preserving`). -/
def pwStack (fs : List Frame) : Bool := fs.any (fun f => preserveTags.contains f.fname)

/-- Well-formedness of a frame's fixed fields. -/
def frameWf (f : Frame) : Prop :=
  nameWf f.fname ∧ attrsWfP f.fattrs ∧ mungeAttrs f.fname f.fattrs = (f.fattrs, f.fsub)

/-- Well-formedness of the assembler stack: each frame is well-formed
and its accumulated children are in normal form for the context formed
by the frames at and below it. -/
def stackWfAux : List Frame → Prop
  | [] => True
  | f :: fs => frameWf f ∧ (∀ n ∈ f.childrenRev, wfN (pwStack (f :: fs)) n) ∧ stackWfAux fs

/-- Assembler state invariant. -/
def stWf (st : AsmState) : Prop :=
  stackWfAux st.stack ∧ ∀ n ∈ st.rootRev, wfN false n

/-- Left fold of `appendNode`. -/
def appendNodes (st : AsmState) (ns : List Node) : AsmState := ns.foldl appendNode st

/-- Well-formedness of events as the tokenizer produces them. -/
def evWf : Event → Prop
  | .startTag nm attrs _ => nameWf nm ∧ ∀ a ∈ attrs, attrNameWf a.1
  | .endTag nm => nameWf nm
  | .chars s => s.toList ≠ []
  | .comm s => occursSub dashGt s.toList = false
  | .doctypeEv s => (∀ c ∈ s.toList, ¬ c = '>') ∧
      (∀ c t, s.toList = c :: t → isWs c = false) ∧ namespacedDoctype s.toList = false
  | .cdataEv s => occursSub cdataClose s.toList = false

/-- The well-formedness guarantee of one tokenizer step. -/
def stepWf (res : StepRes) : Prop :=
  match res with
  | .step ev _ => evWf ev
  | .fin evs => ∀ e ∈ evs, evWf e
  | _ => True

/-- No nontrivial period: for every shift `0 < k < length`, some
position of `d` disagrees with its shift by `k`.  A delimiter with this
property can never match across its own boundary. -/
def aperiodic (d : List Char) : Bool :=
  (List.range d.length).all fun k =>
    k == 0 || !((List.range (d.length - k)).all fun i => d.getD (i + k) ' ' == d.getD i ' ')

mutual

/-- Every element in the subtree keeps its attribute list strictly
sorted by attribute name. -/
def attrsSortedN : Node → Prop
  | .element _ attrs _ ch => attrs.Pairwise attrR ∧ attrsSortedL ch
  | _ => True

def attrsSortedL : List Node → Prop
  | [] => True
  | n :: ns => attrsSortedN n ∧ attrsSortedL ns

end

/-! ## List utilities -/

theorem takeWhile_all {α : Type} {p : α → Bool} :
    ∀ {xs : List α}, (∀ x ∈ xs, p x = true) → xs.takeWhile p = xs
  | [], _ => rfl
  | a :: as, h => by
    simp only [List.takeWhile_cons, h a (by simp)]
    exact congrArg (a :: ·) (takeWhile_all fun x hx => h x (by simp [hx]))

theorem dropWhile_all {α : Type} {p : α → Bool} :
    ∀ {xs : List α}, (∀ x ∈ xs, p x = true) → xs.dropWhile p = []
  | [], _ => rfl
  | a :: as, h => by
    simp only [List.dropWhile_cons, h a (by simp)]
    exact dropWhile_all fun x hx => h x (by simp [hx])

theorem takeWhile_append_stop {α : Type} {p : α → Bool} {xs ys : List α} {y : α}
    (h : ∀ x ∈ xs, p x = true) (hy : p y = false) :
    (xs ++ y :: ys).takeWhile p = xs := by
  induction xs with
  | nil => simp [List.takeWhile_cons, hy]
  | cons a as ih =>
    simp only [List.cons_append, List.takeWhile_cons, h a (by simp)]
    exact congrArg (a :: ·) (ih fun x hx => h x (by simp [hx]))

theorem dropWhile_append_stop {α : Type} {p : α → Bool} {xs ys : List α} {y : α}
    (h : ∀ x ∈ xs, p x = true) (hy : p y = false) :
    (xs ++ y :: ys).dropWhile p = y :: ys := by
  induction xs with
  | nil => simp [List.dropWhile_cons, hy]
  | cons a as ih =>
    simp only [List.cons_append, List.dropWhile_cons, h a (by simp)]
    exact ih fun x hx => h x (by simp [hx])

theorem length_dropWhile_le {α : Type} (p : α → Bool) :
    ∀ l : List α, (l.dropWhile p).length ≤ l.length
  | [] => le_refl _
  | a :: as => by
    simp only [List.dropWhile_cons]
    split
    · exact (length_dropWhile_le p as).trans (by simp)
    · exact le_refl _

theorem dropWhile_suffix' {α : Type} (p : α → Bool) :
    ∀ l : List α, (l.dropWhile p) <:+ l
  | [] => List.nil_suffix
  | a :: as => by
    simp only [List.dropWhile_cons]
    split
    · exact (dropWhile_suffix' p as).trans (List.suffix_cons a as)
    · exact List.suffix_refl _

theorem dropWhile_head_false {α : Type} {p : α → Bool} :
    ∀ {l : List α} {c : α} {cs : List α}, l.dropWhile p = c :: cs → p c = false
  | [], _, _, h => by simp at h
  | a :: as, c, cs, h => by
    by_cases hp : p a = true
    · simp only [List.dropWhile_cons, hp, if_true] at h
      exact dropWhile_head_false h
    · simp only [List.dropWhile_cons, hp, if_false] at h
      cases h
      simpa using hp

theorem mem_takeWhile_sat {α : Type} {p : α → Bool} :
    ∀ {l : List α} {x : α}, x ∈ l.takeWhile p → p x = true
  | [], _, h => by simp at h
  | a :: as, x, h => by
    by_cases hp : p a = true
    · simp only [List.takeWhile_cons, hp, if_true, List.mem_cons] at h
      rcases h with h | h
      · exact h ▸ hp
      · exact mem_takeWhile_sat h
    · simp only [List.takeWhile_cons, hp, if_false] at h
      simp at h

/-! ## Character lemmas -/

theorem toNat_ofNat_valid (n : Nat) (h : n.isValidChar) : (Char.ofNat n).toNat = n := by
  simp only [Char.ofNat, dif_pos h, Char.ofNatAux, Char.toNat, UInt32.toNat]
  exact BitVec.toNat_ofNatLt _ _

theorem char_toNat_ne {c d : Char} (h : c.toNat ≠ d.toNat) : c ≠ d :=
  fun he => h (he ▸ rfl)

theorem isUpperAlpha_toNat {c : Char} (h : isUpperAlpha c = true) :
    65 ≤ c.toNat ∧ c.toNat ≤ 90 := by
  simpa [isUpperAlpha] using h

theorem lowerChar_eq_self {c : Char} (h : isUpperAlpha c = false) : lowerChar c = c := by
  simp [lowerChar, h]

theorem lowerChar_upper_toNat {c : Char} (h : isUpperAlpha c = true) :
    (lowerChar c).toNat = c.toNat + 32 := by
  have hb := isUpperAlpha_toNat h
  simp only [lowerChar, h, if_true]
  exact toNat_ofNat_valid _ (Or.inl (by omega))

/-- Bounds on the code point of a lower-cased name character. -/
theorem isLowerNameChar_toNat {c : Char} (h : isLowerNameChar c = true) :
    (97 ≤ c.toNat ∧ c.toNat ≤ 122) ∨ (48 ≤ c.toNat ∧ c.toNat ≤ 57) ∨ c.toNat = 45 := by
  simp only [isLowerNameChar, isLowerAlpha, isDigitB, Bool.or_eq_true, Bool.and_eq_true,
    decide_eq_true_eq] at h
  have h45 : ('-').toNat = 45 := by decide
  rcases h with (h | h) | h
  · exact Or.inl h
  · exact Or.inr (Or.inl h)
  · exact Or.inr (Or.inr (h ▸ h45))

theorem lowerChar_isLower {c : Char} (h : isNameChar c = true) :
    isLowerNameChar (lowerChar c) = true := by
  by_cases hu : isUpperAlpha c = true
  · have ht := lowerChar_upper_toNat hu
    have hb := isUpperAlpha_toNat hu
    simp only [isLowerNameChar, isLowerAlpha, isDigitB, Bool.or_eq_true, Bool.and_eq_true,
      decide_eq_true_eq, ht]
    exact Or.inl (Or.inl (by omega))
  · rw [lowerChar_eq_self (by simpa using hu)]
    simp only [isNameChar, isAlphaB, Bool.or_eq_true, decide_eq_true_eq] at h
    rcases h with ((h | h) | h) | h
    · exact absurd h hu
    · simp [isLowerNameChar, h]
    · simp [isLowerNameChar, h]
    · simp [isLowerNameChar, h]

theorem lowerChar_id {c : Char} (h : isLowerNameChar c = true) : lowerChar c = c := by
  apply lowerChar_eq_self
  cases hb : isUpperAlpha c with
  | false => rfl
  | true =>
    exfalso
    have h1 := isUpperAlpha_toNat hb
    rcases isLowerNameChar_toNat h with h2 | h2 | h2 <;> omega

theorem isLowerNameChar_isNameChar {c : Char} (h : isLowerNameChar c = true) :
    isNameChar c = true := by
  simp only [isLowerNameChar, Bool.or_eq_true] at h
  rcases h with (h | h) | h <;> simp [isNameChar, isAlphaB, h]

/-- A lower-cased name character is none of the tokenizer's structural
characters. -/
theorem lnc_facts {c : Char} (h : isLowerNameChar c = true) :
    isWs c = false ∧ c ≠ '<' ∧ c ≠ '>' ∧ c ≠ '/' ∧ c ≠ '=' ∧ c ≠ '&' ∧ c ≠ dq ∧ c ≠ sq := by
  have hb := isLowerNameChar_toNat h
  refine ⟨?_, ?_, ?_, ?_, ?_, ?_, ?_, ?_⟩
  · cases hw : isWs c with
    | false => rfl
    | true =>
      exfalso
      simp only [isWs, Bool.or_eq_true, decide_eq_true_eq] at hw
      omega
  · apply char_toNat_ne
    have h1 : ('<').toNat = 60 := by decide
    omega
  · apply char_toNat_ne
    have h1 : ('>').toNat = 62 := by decide
    omega
  · apply char_toNat_ne
    have h1 : ('/').toNat = 47 := by decide
    omega
  · apply char_toNat_ne
    have h1 : ('=').toNat = 61 := by decide
    omega
  · apply char_toNat_ne
    have h1 : ('&').toNat = 38 := by decide
    omega
  · apply char_toNat_ne
    have h1 : dq.toNat = 34 := by decide
    omega
  · apply char_toNat_ne
    have h1 : sq.toNat = 39 := by decide
    omega

theorem isLowerAlpha_isAlphaB {c : Char} (h : isLowerAlpha c = true) : isAlphaB c = true := by
  simp [isAlphaB, h]

theorem isLowerAlpha_isLowerNameChar {c : Char} (h : isLowerAlpha c = true) :
    isLowerNameChar c = true := by
  simp [isLowerNameChar, h]

/-! ## Progress and suffix lemmas for the lexers -/

theorem isPrefixOf_length_le {l₁ l₂ : List Char} (h : l₁.isPrefixOf l₂ = true) :
    l₁.length ≤ l₂.length := (List.isPrefixOf_iff_prefix.1 h).length_le

theorem entityAt_some {cs : List Char} {p : Char × List Char} (h : entityAt cs = some p) :
    p.2 <:+ cs ∧ p.2.length < cs.length := by
  unfold entityAt at h
  split_ifs at h with h1 h2 h3 h4 <;> cases h
  · have hl := isPrefixOf_length_le h1
    have h4 : ("amp;".toList).length = 4 := by decide
    exact ⟨List.drop_suffix _ _, by simp [List.length_drop]; omega⟩
  · have hl := isPrefixOf_length_le h2
    have h3 : ("lt;".toList).length = 3 := by decide
    exact ⟨List.drop_suffix _ _, by simp [List.length_drop]; omega⟩
  · have hl := isPrefixOf_length_le h3
    have h3 : ("gt;".toList).length = 3 := by decide
    exact ⟨List.drop_suffix _ _, by simp [List.length_drop]; omega⟩
  · have hl := isPrefixOf_length_le h4
    have h5 : ("quot;".toList).length = 5 := by decide
    exact ⟨List.drop_suffix _ _, by simp [List.length_drop]; omega⟩

theorem lexTextF_rest_suffix : ∀ (f : Nat) (l : List Char), (lexTextF f l).2 <:+ l
  | 0, l => by simp [lexTextF]
  | _ + 1, [] => by simp [lexTextF]
  | f + 1, c :: cs => by
    simp only [lexTextF]
    split_ifs with h1 h2
    · exact List.suffix_refl _
    · cases he : entityAt cs with
      | none =>
        simp only [cons1]
        exact (lexTextF_rest_suffix f cs).trans (List.suffix_cons c cs)
      | some p =>
        simp only [cons1]
        exact ((lexTextF_rest_suffix f p.2).trans (entityAt_some he).1).trans
          (List.suffix_cons c cs)
    · simp only [cons1]
      exact (lexTextF_rest_suffix f cs).trans (List.suffix_cons c cs)

theorem lexTextF_cons_rest {f : Nat} {c : Char} {cs : List Char} (hc : ¬ c = '<') :
    (lexTextF (f + 1) (c :: cs)).2 <:+ cs := by
  simp only [lexTextF, if_neg hc]
  split_ifs with h2
  · cases he : entityAt cs with
    | none =>
      simp only [cons1]
      exact lexTextF_rest_suffix f cs
    | some p =>
      simp only [cons1]
      exact (lexTextF_rest_suffix f p.2).trans (entityAt_some he).1
  · simp only [cons1]
    exact lexTextF_rest_suffix f cs

theorem skipToGt_some : ∀ {l r : List Char}, skipToGt l = some r →
    r <:+ l ∧ r.length < l.length
  | [], r, h => by simp [skipToGt] at h
  | c :: cs, r, h => by
    simp only [skipToGt] at h
    split_ifs at h with h1
    · cases h
      exact ⟨List.suffix_cons c cs, by simp⟩
    · obtain ⟨h2, h3⟩ := skipToGt_some h
      exact ⟨h2.trans (List.suffix_cons c cs), by simp only [List.length_cons]; omega⟩

theorem takeUntilSub_rest (d : List Char) :
    ∀ l : List Char, (takeUntilSub d l).2 <:+ l ∧ (takeUntilSub d l).2.length ≤ l.length
  | [] => by simp [takeUntilSub]
  | c :: cs => by
    simp only [takeUntilSub]
    split_ifs with h1
    · exact ⟨List.drop_suffix _ _, by simp [List.length_drop]⟩
    · obtain ⟨h2, h3⟩ := takeUntilSub_rest d cs
      simp only [cons1]
      exact ⟨h2.trans (List.suffix_cons c cs), by simp only [List.length_cons]; omega⟩

theorem lexQuotedF_some : ∀ {f : Nat} {q : Char} {l v r : List Char},
    lexQuotedF f q l = some (v, r) → r <:+ l ∧ r.length < l.length
  | 0, q, l, v, r, h => by simp [lexQuotedF] at h
  | _ + 1, q, [], v, r, h => by simp [lexQuotedF] at h
  | f + 1, q, c :: cs, v, r, h => by
    simp only [lexQuotedF] at h
    split_ifs at h with h1 h2
    · cases h
      exact ⟨List.suffix_cons c cs, by simp⟩
    · cases he : entityAt cs with
      | none =>
        rw [he, Option.map_eq_some'] at h
        obtain ⟨⟨v', r'⟩, hv, he2⟩ := h
        cases he2
        obtain ⟨h3, h4⟩ := lexQuotedF_some hv
        exact ⟨h3.trans (List.suffix_cons c cs), by simp only [List.length_cons]; omega⟩
      | some p =>
        rw [he, Option.map_eq_some'] at h
        obtain ⟨⟨v', r'⟩, hv, he2⟩ := h
        cases he2
        obtain ⟨h3, h4⟩ := lexQuotedF_some hv
        obtain ⟨h5, h6⟩ := entityAt_some he
        exact ⟨(h3.trans h5).trans (List.suffix_cons c cs),
          by simp only [List.length_cons]; omega⟩
    · rw [Option.map_eq_some'] at h
      obtain ⟨⟨v', r'⟩, hv, he2⟩ := h
      cases he2
      obtain ⟨h3, h4⟩ := lexQuotedF_some hv
      exact ⟨h3.trans (List.suffix_cons c cs), by simp only [List.length_cons]; omega⟩

theorem lexQuoted_some {q : Char} {l v r : List Char} (h : lexQuoted q l = some (v, r)) :
    r <:+ l ∧ r.length < l.length := lexQuotedF_some h

theorem lexAttrsF_some : ∀ {f : Nat} {l : List Char} {a s r},
    lexAttrsF f l = some (a, s, r) → r <:+ l ∧ r.length < l.length
  | 0, l, a, s, r, h => by simp [lexAttrsF] at h
  | _ + 1, [], a, s, r, h => by simp [lexAttrsF] at h
  | f + 1, c :: cs, a, s, r, h => by
    simp only [lexAttrsF] at h
    split_ifs at h with h1 h2 h3 h4
    · cases h
      exact ⟨List.suffix_cons c cs, by simp⟩
    · rcases cs with _ | ⟨d, cs2⟩
      · simp at h
      · simp only at h
        split_ifs at h with hd
        · cases h
          exact ⟨(List.suffix_cons _ _).trans (List.suffix_cons _ _),
            by simp only [List.length_cons]; omega⟩
        · obtain ⟨h5, h6⟩ := lexAttrsF_some h
          exact ⟨h5.trans (List.suffix_cons _ _),
            by simp only [List.length_cons] at *; omega⟩
    · obtain ⟨h5, h6⟩ := lexAttrsF_some h
      exact ⟨h5.trans (List.suffix_cons c cs), by simp only [List.length_cons]; omega⟩
    · -- name branch
      generalize hR2 : ((c :: cs).dropWhile isNameChar).dropWhile isWs = r2 at h
      have hr2l : r2.length ≤ cs.length := by
        rw [← hR2]
        refine (length_dropWhile_le _ _).trans ?_
        simp only [List.dropWhile_cons, h4, if_true]
        exact length_dropWhile_le _ _
      have hr2s : r2 <:+ c :: cs := by
        rw [← hR2]
        exact (dropWhile_suffix' _ _).trans (dropWhile_suffix' _ _)
      split at h
      · -- a value is present: r2 = '=' :: r3
        rename_i r3
        simp only [List.length_cons] at hr2l
        have hr3s : r3 <:+ c :: cs := (List.suffix_cons _ r3).trans hr2s
        generalize hR4 : r3.dropWhile isWs = r4 at h
        have hr4l : r4.length ≤ r3.length := by
          rw [← hR4]
          exact length_dropWhile_le _ _
        have hr4s : r4 <:+ r3 := by
          rw [← hR4]
          exact dropWhile_suffix' _ _
        split at h
        · simp at h
        · rename_i q r5
          simp only [List.length_cons] at hr4l
          have hr5s : r5 <:+ r3 := (List.suffix_cons q r5).trans hr4s
          split_ifs at h with hq
          · -- quoted value
            split at h
            · rename_i v6 r6 heq
              rw [Option.map_eq_some'] at h
              obtain ⟨p2, hv, he2⟩ := h
              have her : p2.2.2 = r := congrArg (fun t => t.2.2) he2
              obtain ⟨h5, h6⟩ := lexAttrsF_some hv
              rw [her] at h5 h6
              obtain ⟨h7, h8⟩ := lexQuoted_some heq
              constructor
              · exact ((h5.trans h7).trans hr5s).trans hr3s
              · simp only [List.length_cons]
                have := h7.length_le
                omega
            · simp at h
          · -- unquoted value
            rw [Option.map_eq_some'] at h
            obtain ⟨p2, hv, he2⟩ := h
            have her : p2.2.2 = r := congrArg (fun t => t.2.2) he2
            obtain ⟨h5, h6⟩ := lexAttrsF_some hv
            rw [her] at h5 h6
            have h7 : ((q :: r5).dropWhile isUnquotedValChar) <:+ q :: r5 :=
              dropWhile_suffix' _ _
            have h8 := length_dropWhile_le isUnquotedValChar (q :: r5)
            constructor
            · exact ((h5.trans h7).trans (hr4s.trans hr3s))
            · simp only [List.length_cons] at *
              omega
      · -- no value
        rw [Option.map_eq_some'] at h
        obtain ⟨p2, hv, he2⟩ := h
        have her : p2.2.2 = r := congrArg (fun t => t.2.2) he2
        obtain ⟨h5, h6⟩ := lexAttrsF_some hv
        rw [her] at h5 h6
        constructor
        · exact h5.trans hr2s
        · simp only [List.length_cons]
          omega
    · obtain ⟨h5, h6⟩ := lexAttrsF_some h
      exact ⟨h5.trans (List.suffix_cons c cs), by simp only [List.length_cons]; omega⟩

theorem lexAttrs_some {l : List Char} {a s r} (h : lexAttrs l = some (a, s, r)) :
    r <:+ l ∧ r.length < l.length := lexAttrsF_some h

/-! ## Tokenizer progress -/

theorem tokStep_ok : ∀ l : List Char, stepOk l (tokStep l)
  | [] => by simp [tokStep, stepOk]
  | c :: cs => by
    simp only [tokStep]
    split_ifs with hc
    · cases cs with
      | nil => simp [stepOk]
      | cons d cs2 =>
        simp only
        split_ifs with hd hbang hcomm hdoct hns hcd halpha
        · -- end-tag or bogus end-tag
          cases cs2 with
          | nil => simp [stepOk]
          | cons e cs3 =>
            simp only
            split_ifs with he
            · split
              · rename_i rest hsk
                simp only [stepOk]
                obtain ⟨h1, h2⟩ := skipToGt_some hsk
                have h3 : ((e :: cs3).dropWhile isNameChar) <:+ e :: cs3 :=
                  dropWhile_suffix' _ _
                have h4 := length_dropWhile_le isNameChar (e :: cs3)
                constructor
                · exact ((h1.trans h3).trans (List.suffix_cons _ _)).trans
                    (List.suffix_cons _ _)
                · simp only [List.length_cons] at *
                  omega
              · simp [stepOk]
            · split
              · rename_i rest hsk
                simp only [stepOk]
                obtain ⟨h1, h2⟩ := skipToGt_some hsk
                constructor
                · exact (h1.trans (List.suffix_cons _ _)).trans (List.suffix_cons _ _)
                · simp only [List.length_cons] at *
                  omega
              · simp [stepOk]
        · -- comment
          simp only [stepOk]
          obtain ⟨h1, h2⟩ := takeUntilSub_rest dashGt (cs2.drop 2)
          have h3 : (cs2.drop 2) <:+ cs2 := List.drop_suffix _ _
          have h4 : (cs2.drop 2).length = cs2.length - 2 := by simp [List.length_drop]
          constructor
          · exact ((h1.trans h3).trans (List.suffix_cons _ _)).trans (List.suffix_cons _ _)
          · simp only [List.length_cons]
            omega
        · -- namespaced doctype fails
          simp [stepOk]
        · -- doctype
          simp only [stepOk]
          have h1 : ((cs2.drop 7).dropWhile isWs) <:+ cs2.drop 7 := dropWhile_suffix' _ _
          have h2 := length_dropWhile_le isWs (cs2.drop 7)
          have h3 : (((cs2.drop 7).dropWhile isWs).dropWhile (fun c => c != '>')) <:+
              ((cs2.drop 7).dropWhile isWs) := dropWhile_suffix' _ _
          have h4 := length_dropWhile_le (fun c => c != '>') ((cs2.drop 7).dropWhile isWs)
          have h5 : ((((cs2.drop 7).dropWhile isWs).dropWhile (fun c => c != '>')).drop 1) <:+
              (((cs2.drop 7).dropWhile isWs).dropWhile (fun c => c != '>')) :=
            List.drop_suffix _ _
          have h6 := List.length_drop 1
            ((((cs2.drop 7).dropWhile isWs).dropWhile (fun c => c != '>')))
          have h7 : (cs2.drop 7) <:+ cs2 := List.drop_suffix _ _
          have h8 : (cs2.drop 7).length = cs2.length - 7 := by simp [List.length_drop]
          constructor
          · exact ((((h5.trans h3).trans h1).trans h7).trans (List.suffix_cons _ _)).trans
              (List.suffix_cons _ _)
          · simp only [List.length_cons]
            omega
        · -- cdata
          simp only [stepOk]
          obtain ⟨h1, h2⟩ := takeUntilSub_rest cdataClose (cs2.drop 7)
          have h3 : (cs2.drop 7) <:+ cs2 := List.drop_suffix _ _
          have h4 : (cs2.drop 7).length = cs2.length - 7 := by simp [List.length_drop]
          constructor
          · exact ((h1.trans h3).trans (List.suffix_cons _ _)).trans (List.suffix_cons _ _)
          · simp only [List.length_cons]
            omega
        · -- malformed declaration
          simp [stepOk]
        · -- start tag
          split
          · rename_i attrs sc rest hlx
            simp only [stepOk]
            obtain ⟨h1, h2⟩ := lexAttrs_some hlx
            have h3 : ((d :: cs2).dropWhile isNameChar) <:+ d :: cs2 := dropWhile_suffix' _ _
            have h4 := length_dropWhile_le isNameChar (d :: cs2)
            constructor
            · exact (h1.trans h3).trans (List.suffix_cons _ _)
            · simp only [List.length_cons] at *
              omega
          · simp [stepOk]
        · -- literal angle bracket
          simp only [stepOk]
          exact ⟨List.suffix_cons _ _, by simp⟩
    · -- character data
      simp only [stepOk]
      have h1 : lexText (c :: cs) = lexTextF (cs.length + 1 + 1) (c :: cs) := by
        simp [lexText]
      rw [h1]
      have h2 := @lexTextF_cons_rest (cs.length + 1) c cs hc
      exact ⟨h2.trans (List.suffix_cons _ _),
        by simp only [List.length_cons]; have := h2.length_le; omega⟩

theorem tokStep_step_progress {l : List Char} {ev r} (h : tokStep l = .step ev r) :
    r <:+ l ∧ r.length < l.length := by
  have := tokStep_ok l
  rw [h] at this
  exact this

theorem tokStep_skip_progress {l r : List Char} (h : tokStep l = .skip r) :
    r <:+ l ∧ r.length < l.length := by
  have := tokStep_ok l
  rw [h] at this
  exact this

theorem tokenizeF_mono : ∀ {f g : Nat} {l : List Char}, l.length < f → l.length < g →
    tokenizeF f l = tokenizeF g l
  | 0, _, _, hf, _ => absurd hf (by omega)
  | _ + 1, 0, _, _, hg => absurd hg (by omega)
  | f + 1, g + 1, l, hf, hg => by
    simp only [tokenizeF]
    cases ht : tokStep l with
    | fail => rfl
    | fin evs => rfl
    | skip r =>
      obtain ⟨h1, h2⟩ := tokStep_skip_progress ht
      show tokenizeF f r = tokenizeF g r
      exact tokenizeF_mono (by omega) (by omega)
    | step ev r =>
      obtain ⟨h1, h2⟩ := tokStep_step_progress ht
      show Except.map (fun evs => ev :: evs) (tokenizeF f r) =
        Except.map (fun evs => ev :: evs) (tokenizeF g r)
      rw [tokenizeF_mono (f := f) (g := g) (by omega) (by omega)]

/-! ## The tokenizer interface -/

theorem tokenizeF_succ (f : Nat) (l : List Char) :
    tokenizeF (f + 1) l =
      match tokStep l with
      | .fail => .error TokErr.malformedDeclaration
      | .fin evs => .ok evs
      | .skip rest => tokenizeF f rest
      | .step ev rest => (tokenizeF f rest).map (fun evs => ev :: evs) := rfl

theorem tokenize_nil : tokenize [] = .ok [] := rfl

theorem tokenize_fin {l : List Char} {evs : List Event} (h : tokStep l = .fin evs) :
    tokenize l = .ok evs := by
  show tokenizeF (l.length + 1) l = .ok evs
  rw [tokenizeF_succ, h]

theorem tokenize_fail {l : List Char} (h : tokStep l = .fail) :
    tokenize l = .error TokErr.malformedDeclaration := by
  show tokenizeF (l.length + 1) l = .error TokErr.malformedDeclaration
  rw [tokenizeF_succ, h]

theorem tokenize_skip {l r : List Char} (h : tokStep l = .skip r) :
    tokenize l = tokenize r := by
  obtain ⟨h1, h2⟩ := tokStep_skip_progress h
  show tokenizeF (l.length + 1) l = tokenize r
  rw [tokenizeF_succ, h]
  exact tokenizeF_mono h2 (by omega)

theorem tokenize_step {l r : List Char} {ev : Event} (h : tokStep l = .step ev r) :
    tokenize l = (tokenize r).map (fun evs => ev :: evs) := by
  obtain ⟨h1, h2⟩ := tokStep_step_progress h
  show tokenizeF (l.length + 1) l = (tokenize r).map (fun evs => ev :: evs)
  rw [tokenizeF_succ, h]
  show (tokenizeF l.length r).map (fun evs => ev :: evs) =
    (tokenize r).map (fun evs => ev :: evs)
  rw [tokenizeF_mono (g := r.length + 1) h2 (by omega)]
  rfl

theorem except_map_ok {α β γ : Type} (f : α → β) (x : Except γ α) (b : β) :
    x.map f = .ok b ↔ ∃ a, x = .ok a ∧ f a = b := by
  cases x <;> simp [Except.map]

theorem except_map_error {α β γ : Type} (f : α → β) (x : Except γ α) (e : γ) :
    x.map f = .error e ↔ x = .error e := by
  cases x <;> simp [Except.map]

/-! ## Malformed declarations are the only tokenizer failures -/

theorem tokStep_fail_bad : ∀ {l : List Char}, tokStep l = .fail → badTokAt l
  | [], h => by simp [tokStep] at h
  | c :: cs, h => by
    simp only [tokStep] at h
    split_ifs at h with hc
    · cases cs with
      | nil => simp at h
      | cons d cs2 =>
        simp only at h
        split_ifs at h with hd hbang hcomm hdoct hns hcd halpha
        · cases cs2 with
          | nil => simp at h
          | cons e cs3 =>
            simp only at h
            split_ifs at h with he
            · split at h <;> simp at h
            · split at h <;> simp at h
        · exact .inr ⟨cs2, by rw [hc, hbang], hdoct, hns⟩
        · simp only [Bool.not_eq_true] at hcomm hdoct hcd
          exact .inl ⟨cs2, by rw [hc, hbang], hcomm, hdoct, hcd⟩
        · split at h <;> simp at h

theorem tokenize_error_bad : ∀ (n : Nat) (l : List Char), l.length ≤ n →
    tokenize l = .error TokErr.malformedDeclaration → hasBadTok l
  | n, l, hn, h => by
    cases ht : tokStep l with
    | fail => exact ⟨l, List.suffix_refl l, tokStep_fail_bad ht⟩
    | fin evs => rw [tokenize_fin ht] at h; simp at h
    | skip r =>
      obtain ⟨h1, h2⟩ := tokStep_skip_progress ht
      rw [tokenize_skip ht] at h
      cases n with
      | zero =>
        have : l = [] := by
          cases l with
          | nil => rfl
          | cons a as => simp at hn
        subst this
        simp [tokStep] at ht
      | succ m =>
        obtain ⟨s, hs1, hs2⟩ := tokenize_error_bad m r (by omega) h
        exact ⟨s, hs1.trans h1, hs2⟩
    | step ev r =>
      obtain ⟨h1, h2⟩ := tokStep_step_progress ht
      rw [tokenize_step ht, except_map_error] at h
      cases n with
      | zero =>
        have : l = [] := by
          cases l with
          | nil => rfl
          | cons a as => simp at hn
        subst this
        simp [tokStep] at ht
      | succ m =>
        obtain ⟨s, hs1, hs2⟩ := tokenize_error_bad m r (by omega) h
        exact ⟨s, hs1.trans h1, hs2⟩

/-! ## Entity recognition on escaped output -/

theorem entityAt_amp (rest : List Char) :
    entityAt ('a' :: 'm' :: 'p' :: ';' :: rest) = some ('&', rest) := by
  unfold entityAt
  rw [if_pos]
  · simp
  · exact List.isPrefixOf_iff_prefix.2 ⟨rest, rfl⟩

theorem entityAt_lt (rest : List Char) :
    entityAt ('l' :: 't' :: ';' :: rest) = some ('<', rest) := by
  unfold entityAt
  rw [if_neg, if_pos]
  · simp
  · exact List.isPrefixOf_iff_prefix.2 ⟨rest, rfl⟩
  · intro hp
    obtain ⟨t, ht⟩ := List.isPrefixOf_iff_prefix.1 hp
    simp [String.toList] at ht

theorem entityAt_gt (rest : List Char) :
    entityAt ('g' :: 't' :: ';' :: rest) = some ('>', rest) := by
  unfold entityAt
  rw [if_neg, if_neg, if_pos]
  · simp
  · exact List.isPrefixOf_iff_prefix.2 ⟨rest, rfl⟩
  · intro hp
    obtain ⟨t, ht⟩ := List.isPrefixOf_iff_prefix.1 hp
    simp [String.toList] at ht
  · intro hp
    obtain ⟨t, ht⟩ := List.isPrefixOf_iff_prefix.1 hp
    simp [String.toList] at ht

theorem entityAt_quot (rest : List Char) :
    entityAt ('q' :: 'u' :: 'o' :: 't' :: ';' :: rest) = some (dq, rest) := by
  unfold entityAt
  rw [if_neg, if_neg, if_neg, if_pos]
  · simp
  · exact List.isPrefixOf_iff_prefix.2 ⟨rest, rfl⟩
  · intro hp
    obtain ⟨t, ht⟩ := List.isPrefixOf_iff_prefix.1 hp
    simp [String.toList] at ht
  · intro hp
    obtain ⟨t, ht⟩ := List.isPrefixOf_iff_prefix.1 hp
    simp [String.toList] at ht
  · intro hp
    obtain ⟨t, ht⟩ := List.isPrefixOf_iff_prefix.1 hp
    simp [String.toList] at ht

theorem lexQuotedF_close (f : Nat) (q : Char) (rest : List Char) :
    lexQuotedF (f + 1) q (q :: rest) = some ([], rest) := by
  simp [lexQuotedF]

theorem lexQuotedF_amp (f : Nat) (rest : List Char) :
    lexQuotedF (f + 1) dq ('&' :: rest) =
      match entityAt rest with
      | some p => (lexQuotedF f dq p.2).map (fun r => (p.1 :: r.1, r.2))
      | none => (lexQuotedF f dq rest).map (fun r => ('&' :: r.1, r.2)) := by
  have h1 : ('&' : Char) ≠ dq := by decide
  simp [lexQuotedF, h1]

theorem lexQuotedF_other (f : Nat) (q c : Char) (rest : List Char) (h1 : ¬ c = q)
    (h2 : ¬ c = '&') :
    lexQuotedF (f + 1) q (c :: rest) =
      (lexQuotedF f q rest).map (fun r => (c :: r.1, r.2)) := by
  simp [lexQuotedF, h1, h2]

/-- Inversion of attribute-value escaping: scanning a double-quoted
value whose body is `escAttr v` recovers `v` exactly. -/
theorem lexQuotedF_escAttr : ∀ (v r : List Char) (f : Nat),
    (escAttr v ++ dq :: r).length < f →
    lexQuotedF f dq (escAttr v ++ dq :: r) = some (v, r)
  | [], r, f + 1, _ => by
    show lexQuotedF (f + 1) dq (dq :: r) = some ([], r)
    rw [lexQuotedF_close]
  | c :: v, r, f + 1, hf => by
    by_cases hamp : c = '&'
    · subst hamp
      have he : escAttr ('&' :: v) ++ dq :: r
          = '&' :: 'a' :: 'm' :: 'p' :: ';' :: (escAttr v ++ dq :: r) := by
        simp [escAttr, escListWith, escAttrChar]
      rw [he] at hf ⊢
      rw [lexQuotedF_amp, entityAt_amp]
      show (lexQuotedF f dq (escAttr v ++ dq :: r)).map (fun r => ('&' :: r.1, r.2))
          = some ('&' :: v, r)
      rw [lexQuotedF_escAttr v r f
        (by simp only [List.length_cons, List.length_append] at hf ⊢; omega)]
      rfl
    · by_cases hdq : c = dq
      · subst hdq
        have he : escAttr (dq :: v) ++ dq :: r
            = '&' :: 'q' :: 'u' :: 'o' :: 't' :: ';' :: (escAttr v ++ dq :: r) := by
          simp [escAttr, escListWith, escAttrChar, hamp]
        rw [he] at hf ⊢
        rw [lexQuotedF_amp, entityAt_quot]
        show (lexQuotedF f dq (escAttr v ++ dq :: r)).map (fun r => (dq :: r.1, r.2))
            = some (dq :: v, r)
        rw [lexQuotedF_escAttr v r f
          (by simp only [List.length_cons, List.length_append] at hf ⊢; omega)]
        rfl
      · have he : escAttr (c :: v) ++ dq :: r = c :: (escAttr v ++ dq :: r) := by
          simp [escAttr, escListWith, escAttrChar, hamp, hdq]
        rw [he] at hf ⊢
        rw [lexQuotedF_other f dq c _ hdq hamp]
        rw [lexQuotedF_escAttr v r f
          (by simp only [List.length_cons, List.length_append] at hf ⊢; omega)]
        rfl

theorem lexQuoted_escAttr (v r : List Char) :
    lexQuoted dq (escAttr v ++ dq :: r) = some (v, r) :=
  lexQuotedF_escAttr v r _ (by omega)

theorem lexQuotedF_amp_any (f : Nat) (q : Char) (rest : List Char) (h : ¬ ('&' : Char) = q) :
    lexQuotedF (f + 1) q ('&' :: rest) =
      match entityAt rest with
      | some p => (lexQuotedF f q p.2).map (fun r => (p.1 :: r.1, r.2))
      | none => (lexQuotedF f q rest).map (fun r => ('&' :: r.1, r.2)) := by
  simp [lexQuotedF, h]

/-- Inversion of ampersand-only escaping inside single quotes: scanning
a single-quoted value whose body is `escAmp v` recovers `v` exactly,
provided `v` holds no single quote. -/
theorem lexQuotedF_escAmp : ∀ (v r : List Char) (f : Nat), ¬ sq ∈ v →
    (escAmp v ++ sq :: r).length < f →
    lexQuotedF f sq (escAmp v ++ sq :: r) = some (v, r)
  | [], r, f + 1, _, _ => by
    show lexQuotedF (f + 1) sq (sq :: r) = some ([], r)
    rw [lexQuotedF_close]
  | c :: v, r, f + 1, hsq, hf => by
    have hsq1 : ¬ c = sq := fun he => hsq (by rw [he] ; simp)
    have hsq2 : ¬ sq ∈ v := fun he => hsq (by simp [he])
    by_cases hamp : c = '&'
    · subst hamp
      have he : escAmp ('&' :: v) ++ sq :: r
          = '&' :: 'a' :: 'm' :: 'p' :: ';' :: (escAmp v ++ sq :: r) := by
        simp [escAmp, escListWith, escAmpChar]
      rw [he] at hf ⊢
      rw [lexQuotedF_amp_any f sq _ (by decide), entityAt_amp]
      show (lexQuotedF f sq (escAmp v ++ sq :: r)).map (fun r => ('&' :: r.1, r.2))
          = some ('&' :: v, r)
      rw [lexQuotedF_escAmp v r f hsq2
        (by simp only [List.length_cons, List.length_append] at hf ⊢ ; omega)]
      rfl
    · have he : escAmp (c :: v) ++ sq :: r = c :: (escAmp v ++ sq :: r) := by
        simp [escAmp, escListWith, escAmpChar, hamp]
      rw [he] at hf ⊢
      rw [lexQuotedF_other f sq c _ hsq1 hamp]
      rw [lexQuotedF_escAmp v r f hsq2
        (by simp only [List.length_cons, List.length_append] at hf ⊢ ; omega)]
      rfl

theorem lexQuoted_escAmp (v r : List Char) (hv : ¬ sq ∈ v) :
    lexQuoted sq (escAmp v ++ sq :: r) = some (v, r) :=
  lexQuotedF_escAmp v r _ hv (by omega)

/-- The escaped body of an attribute value never contains a raw
double quote. -/
theorem escAttr_no_dq : ∀ v : List Char, dq ∉ escAttr v
  | [] => by simp [escAttr, escListWith]
  | c :: v => by
    have ih := escAttr_no_dq v
    show dq ∉ escAttrChar c ++ escAttr v
    rw [List.mem_append]
    rintro (h | h)
    · unfold escAttrChar at h
      split_ifs at h with h1 h2
      · revert h
        decide
      · revert h
        decide
      · simp at h
        exact h2 h.symm
    · exact ih h

/-! ## Claims C2, C3, C4, C6, C7, C9 -/

/-- Claim C9, counterexample: on the nonsensical declaration of
`test_nonsensical_declaration` and on the namespaced doctype of
`test_namespaced_system_doctype`, `parse` with the default lenient
builder raises the tokenizer error instead of recovering, so the claim
that a TokenizeError never occurs for the lenient backend is false. -/
theorem c9_counterexample :
    parse "<! Foo = -8><p>a</p>" = .error TokErr.malformedDeclaration ∧
    parse "<!DOCTYPE xsl:stylesheet SYSTEM \"htmlent.dtd\"><p>foo</p>"
      = .error TokErr.malformedDeclaration := ⟨rfl, rfl⟩

/-- Claim C9, amended: the lenient HTMLParser-based builder does raise a
tokenizer error (the tests assert `HTMLParseError`), but only on inputs
containing a malformed declaration or a namespaced doctype: whenever
`parse` fails, some suffix of the input begins with `<!` followed by
neither a comment opener, a doctype keyword, nor a CDATA opener, or
begins a doctype whose root name holds a colon; on all other inputs
parse returns a usable Document. -/
theorem c9_errors_characterized (s : String)
    (h : parse s = .error TokErr.malformedDeclaration) : hasBadTok s.toList := by
  unfold parse parseWith at h
  rw [except_map_error] at h
  exact tokenize_error_bad s.toList.length s.toList (le_refl _) h

/-- Claim C9, witness: the amended theorem applied to the tests'
concrete namespaced doctype. -/
theorem c9_witness :
    hasBadTok ("<!DOCTYPE xsl:stylesheet SYSTEM \"htmlent.dtd\"><p>foo</p>".toList) :=
  c9_errors_characterized "<!DOCTYPE xsl:stylesheet SYSTEM \"htmlent.dtd\"><p>foo</p>" rfl

/-- Claim C3: parsing `A <b>bold</b> <meta/> <i>statement</i>` with a
strainer matching tag name `b` yields the tree containing exactly the
matching `b` element with its own child text, and its serialized form is
exactly `<b>bold</b>`: the surrounding text, the meta element and the i
element are all absent. -/
theorem c3_strainer_keeps_only_matches :
    parseOnly "A <b>bold</b> <meta/> <i>statement</i>" (strainTag "b")
      = .ok ⟨[Node.element "b" [] false [Node.text "bold"]], none⟩ ∧
    (parseOnly "A <b>bold</b> <meta/> <i>statement</i>" (strainTag "b")).map
      Document.decode = .ok "<b>bold</b>" :=
  ⟨rfl, rfl⟩

/-- Claim C4: the mismatched close tag in
`<blockquote><p><b>Foo</blockquote><p>Bar` auto-closes the open `b` and
`p` elements, producing the tree that serializes to
`<blockquote><p><b>Foo</b></p></blockquote><p>Bar</p>`; and a close tag
whose name matches nothing on the stack is ignored (the recovery is a
total function, so it always terminates and never fails). -/
theorem c4_mismatched_close_recovery :
    ((parse "<blockquote><p><b>Foo</blockquote><p>Bar").map Document.decode
      = .ok "<blockquote><p><b>Foo</b></p></blockquote><p>Bar</p>") ∧
    (∀ (nm : String) (st : AsmState), (st.stack.map Frame.fname).contains nm = false →
      handleEnd nm st = st) := by
  refine ⟨rfl, ?_⟩
  intro nm st h
  unfold handleEnd
  split
  · rfl
  · have hcond : ¬ ((st.stack.map Frame.fname).contains nm = true) := by
      rw [h]
      exact Bool.false_ne_true
    rw [if_neg hcond]

/-- Claim C4, witness: the stray-close part of the theorem applied to a
concrete state. -/
theorem c4_witness : handleEnd "b" emptyState = emptyState :=
  c4_mismatched_close_recovery.2 "b" emptyState rfl

/-- Claim C2, counterexample: `test_empty_element_tag_with_contents`
has `<br>foo</br>` parse to a `br` element that keeps its child `foo`
and serializes in non-empty form, so a constructed element named by a
void tag can have children and `is_empty_element == false`; the claim
as stated (every constructed element with a void name is empty) fails. -/
theorem c2_counterexample :
    parse "<br>foo</br>" = .ok ⟨[Node.element "br" [] false [Node.text "foo"]], none⟩ ∧
    "br" ∈ voidTags ∧
    Node.isEmptyElement (Node.element "br" [] false [Node.text "foo"]) = false ∧
    (parse "<br>foo</br>").map Document.decode = .ok "<br>foo</br>" :=
  ⟨rfl, by simp [voidTags], rfl, rfl⟩

/-- Claim C2, amended: for every tag name `t` in the void-tag policy,
an element named `t` constructed from `<t>`, `<t/>` or `<t></t>` has no
children and `is_empty_element == true`, and serializes in self-closing
form `<t/>`; an element named `t` that acquired children (as in
`<br>foo</br>`) is not empty-element.  The paragraph exception holds
unconditionally: an element named `p` is never empty-element, whatever
its attributes or children, and `<p/>` serializes as `<p></p>`. -/
theorem c2_void_tag_policy :
    (∀ t ∈ voidTags,
      parse ("<" ++ t ++ "/>") = .ok ⟨[Node.element t [] false []], none⟩ ∧
      parse ("<" ++ t ++ ">") = .ok ⟨[Node.element t [] false []], none⟩ ∧
      parse ("<" ++ t ++ "></" ++ t ++ ">") = .ok ⟨[Node.element t [] false []], none⟩ ∧
      Node.isEmptyElement (Node.element t [] false []) = true ∧
      (parse ("<" ++ t ++ "/>")).map Document.decode = .ok ("<" ++ t ++ "/>")) ∧
    (∀ (attrs : List (String × Option String)) (sub : Bool) (ch : List Node),
      Node.isEmptyElement (Node.element "p" attrs sub ch) = false) ∧
    (parse "<p/>").map Document.decode = .ok "<p></p>" := by
  refine ⟨?_, ?_, rfl⟩
  · intro t ht
    simp only [voidTags, List.mem_cons, List.not_mem_nil, or_false] at ht
    rcases ht with rfl | rfl | rfl | rfl | rfl | rfl | rfl | rfl <;>
      exact ⟨rfl, rfl, rfl, rfl, rfl⟩
  · intro attrs sub ch
    show (ch.isEmpty && voidTags.contains "p") = false
    rw [show voidTags.contains "p" = false from rfl, Bool.and_false]

/-- Claim C2, witness: the void-tag part of the theorem applied to
`br`. -/
theorem c2_witness :
    parse "<br></br>" = .ok ⟨[Node.element "br" [] false []], none⟩ ∧
    Node.isEmptyElement (Node.element "br" [] false []) = true :=
  ⟨(c2_void_tag_policy.1 "br" (by simp [voidTags])).2.2.1,
   (c2_void_tag_policy.1 "br" (by simp [voidTags])).2.2.2.1⟩

theorem parseWith_ok {so : Option Strainer} {l : List Char} {d : Document}
    (h : parseWith so l = .ok d) :
    ∃ evs, tokenize l = .ok evs ∧ d = ⟨parseEvents so evs, none⟩ := by
  unfold parseWith at h
  rw [except_map_ok] at h
  obtain ⟨evs, h1, h2⟩ := h
  exact ⟨evs, h1, h2.symm⟩

theorem parseBytes_ok {bs : List Nat} {fe : Option Enc} {d : Document}
    (h : parseBytes bs fe = .ok d) :
    d.originalEncoding = some (resolveEncoding bs fe).1 := by
  unfold parseBytes at h
  rw [except_map_ok] at h
  obtain ⟨evs, h1, h2⟩ := h
  rw [← h2]

/-- Claim C6: `original_encoding` is set exactly for raw-byte input:
parsing already-decoded text always records none; parsing bytes always
records some detected or overridden encoding name; and ASCII bytes
without an override record `ascii`. -/
theorem c6_original_encoding_iff_bytes :
    (∀ (s : String) (d : Document), parse s = .ok d → d.originalEncoding = none) ∧
    (∀ (bs : List Nat) (fe : Option Enc) (d : Document), parseBytes bs fe = .ok d →
      ∃ nm, d.originalEncoding = some nm) ∧
    (∀ (bs : List Nat) (d : Document), allAscii bs = true → parseBytes bs none = .ok d →
      d.originalEncoding = some "ascii") := by
  refine ⟨?_, ?_, ?_⟩
  · intro s d h
    obtain ⟨evs, h1, h2⟩ := parseWith_ok h
    rw [h2]
  · intro bs fe d h
    exact ⟨_, parseBytes_ok h⟩
  · intro bs d ha h
    rw [parseBytes_ok h]
    unfold resolveEncoding
    simp [ha]

/-- Claim C6, witness: the theorem applied to concrete text and byte
inputs. -/
theorem c6_witness :
    (⟨[Node.text "x"], none⟩ : Document).originalEncoding = none ∧
    (⟨[Node.text "b"], some "ascii"⟩ : Document).originalEncoding = some "ascii" :=
  ⟨c6_original_encoding_iff_bytes.1 "x" ⟨[Node.text "x"], none⟩ rfl,
   c6_original_encoding_iff_bytes.2.2 [98] ⟨[Node.text "b"], some "ascii"⟩ rfl rfl⟩

/-- Claim C7, counterexample: for the nested-quotes value of
`test_attribute_values_with_nested_quotes_are_left_alone` the rendered
attribute keeps single-quote delimiters and its double quotes raw, so
the claim that serialization always double-quotes the value and escapes
every literal double quote as `&quot;` is false. -/
theorem c7_counterexample :
    renderAttr none ("attr", some "bar \"brawls\" happen")
      = (" attr=" ++ String.mk [sq] ++ "bar \"brawls\" happen" ++ String.mk [sq]).toList := rfl

/-- Claim C7, corrected: serialization does not always double-quote
attribute values.  When the stored value holds a double quote but no
single quote, the serializer uses single-quote delimiters and keeps the
double quotes raw, escaping only `&`
(`test_attribute_values_with_nested_quotes_are_left_alone`); in every
other case the value is double-quoted and the body escapes exactly `&`
and `"` as `&amp;` and `&quot;` and contains no raw double quote.
Scanning either rendered form recovers the stored value exactly, and
the concrete test inputs (single-quoted source, ampersand in value,
nested quotes, double-nested quotes) serialize as the tests expect. -/
theorem c7_attribute_escaping :
    (∀ (nm v : String), ¬ (dq ∈ v.toList ∧ ¬ sq ∈ v.toList) →
      renderAttr none (nm, some v)
        = ' ' :: nm.toList ++ '=' :: dq :: escAttr v.toList ++ [dq]) ∧
    (∀ (nm v : String), dq ∈ v.toList → ¬ sq ∈ v.toList →
      renderAttr none (nm, some v)
        = ' ' :: nm.toList ++ '=' :: sq :: escAmp v.toList ++ [sq]) ∧
    (escAttrChar '&' = "&amp;".toList ∧ escAttrChar dq = "&quot;".toList ∧
      ∀ c : Char, ¬ c = '&' → ¬ c = dq → escAttrChar c = [c]) ∧
    (escAmpChar '&' = "&amp;".toList ∧ ∀ c : Char, ¬ c = '&' → escAmpChar c = [c]) ∧
    (∀ v : List Char, dq ∉ escAttr v) ∧
    (∀ v r : List Char, lexQuoted dq (escAttr v ++ dq :: r) = some (v, r)) ∧
    (∀ v r : List Char, ¬ sq ∈ v → lexQuoted sq (escAmp v ++ sq :: r) = some (v, r)) ∧
    ((parse ("<foo attr=" ++ String.mk [sq] ++ "bar" ++ String.mk [sq] ++ "></foo>")).map
      Document.decode = .ok "<foo attr=\"bar\"></foo>") ∧
    ((parse "<this is=\"really messed up & stuff\"></this>").map Document.decode
      = .ok "<this is=\"really messed up &amp; stuff\"></this>") ∧
    ((parse ("<foo attr=" ++ String.mk [sq] ++ "bar \"brawls\" happen"
        ++ String.mk [sq] ++ ">a</foo>")).map Document.decode
      = .ok ("<foo attr=" ++ String.mk [sq] ++ "bar \"brawls\" happen"
        ++ String.mk [sq] ++ ">a</foo>")) ∧
    (renderAttr none ("attr", some ("Brawls happen at \"Bob" ++ String.mk [sq] ++ "s Bar\""))
      = (" attr=\"Brawls happen at &quot;Bob" ++ String.mk [sq]
          ++ "s Bar&quot;\"").toList) := by
  refine ⟨?_, ?_, ⟨by decide, by decide, ?_⟩, ⟨by decide, ?_⟩,
    escAttr_no_dq, lexQuoted_escAttr, lexQuoted_escAmp, rfl, rfl, rfl, rfl⟩
  · intro nm v h
    have h9 : ¬ (dq ∈ rawAttrVal none v ∧ ¬ sq ∈ rawAttrVal none v) := h
    show ' ' :: (nm.toList ++ '=' :: quoteAttrVal none v) = _
    unfold quoteAttrVal
    rw [if_neg h9]
    simp [attrValChars, rawAttrVal]
  · intro nm v h1 h2
    have h9 : dq ∈ rawAttrVal none v ∧ ¬ sq ∈ rawAttrVal none v := ⟨h1, h2⟩
    show ' ' :: (nm.toList ++ '=' :: quoteAttrVal none v) = _
    unfold quoteAttrVal
    rw [if_pos h9]
    have h8 : escAmp (rawAttrVal none v) = escAmp v.toList := rfl
    rw [h8]
    simp
  · intro c h1 h2
    simp [escAttrChar, h1, h2]
  · intro c h1
    simp [escAmpChar, h1]

/-- Claim C7, witness: the single-quote clause applied to a concrete
value containing a double quote and no single quote. -/
theorem c7_witness :
    renderAttr none ("x", some "a\"b")
      = ' ' :: "x".toList ++ '=' :: sq :: escAmp "a\"b".toList ++ [sq] :=
  c7_attribute_escaping.2.1 "x" "a\"b" (by decide) (by decide)

/-! ## Placeholder substitution -/

theorem replaceSubF_nil (e d : List Char) : ∀ f, replaceSubF e d f [] = []
  | 0 => rfl
  | _ + 1 => rfl

theorem replaceSub_placeholder_core :
    ∀ (u : List Char) (e : List Char) (f : Nat),
      (u ++ placeholderCharset.toList).length < f → '%' ∉ u →
      replaceSubF e placeholderCharset.toList f (u ++ placeholderCharset.toList) = u ++ e
  | [], e, f + 1, _, _ => by
    rw [List.nil_append]
    rw [show placeholderCharset.toList = '%' :: "SOUP-ENCODING%".toList from rfl]
    simp only [replaceSubF]
    rw [if_pos (by decide)]
    rw [show List.drop ('%' :: "SOUP-ENCODING%".toList).length
      ('%' :: "SOUP-ENCODING%".toList) = ([] : List Char) from by decide]
    rw [replaceSubF_nil]
    simp
  | c :: u, e, f + 1, hf, hmem => by
    have hc : ¬ c = '%' := fun he => hmem (he ▸ List.mem_cons_self c u)
    simp only [List.cons_append, replaceSubF, List.append_eq]
    rw [if_neg]
    · rw [replaceSub_placeholder_core u e f
        (by simp only [List.length_cons, List.length_append] at hf ⊢; omega)
        (fun hm => hmem (List.mem_cons_of_mem c hm))]
    · intro hp
      obtain ⟨t, ht⟩ := List.isPrefixOf_iff_prefix.1 hp
      rw [show placeholderCharset.toList = '%' :: "SOUP-ENCODING%".toList from rfl] at ht
      simp only [List.cons_append, List.cons.injEq] at ht
      exact hc ht.1.symm

theorem replaceSub_placeholder (u e : List Char) (h : '%' ∉ u) :
    replaceSub placeholderCharset.toList e (u ++ placeholderCharset.toList) = u ++ e :=
  replaceSub_placeholder_core u e _ (by omega) h

set_option maxRecDepth 4000 in
/-- Claim C8: for an element flagged `contains_substitutions`,
serializing with an output encoding replaces the stored placeholder
charset token by the encoding name in the rendered output only, while
the tree keeps the placeholder: rendering an attribute value
`u ++ %SOUP-ENCODING%` under encoding `e` yields `u ++ e` (escaped),
rendering without an output encoding keeps values verbatim, and on the
concrete meta document of `test_meta_tag_reflects_current_encoding` the
parsed tree stores the placeholder with `contains_substitutions = true`
and the very same document value renders `charset=utf-8` under UTF-8,
`charset=euc-jp` under EUC-JP, and the placeholder when decoded without
an output encoding. -/
theorem c8_substitution_only_at_render_time :
    (∀ (eName : String) (u : List Char), '%' ∉ u →
      attrValChars (some eName) (String.mk (u ++ placeholderCharset.toList))
        = escAttr (u ++ eName.toList)) ∧
    (∀ v : String, attrValChars none v = escAttr v.toList) ∧
    (parse "<html><head>\n<meta content=\"text/html; charset=x-sjis\" http-equiv=\"Content-type\"/>\n<meta http-equiv=\"Content-language\" content=\"ja\"/></head><body>Shift-JIS markup goes here."
      = .ok ⟨[Node.element "html" [] false
          [Node.element "head" [] false
            [Node.text " ",
             Node.element "meta"
               [("content", some "text/html; charset=%SOUP-ENCODING%"),
                ("http-equiv", some "Content-type")] true [],
             Node.text " ",
             Node.element "meta"
               [("content", some "ja"), ("http-equiv", some "Content-language")] false []],
           Node.element "body" [] false [Node.text "Shift-JIS markup goes here."]]], none⟩) ∧
    (lookupAttr "content"
        [("content", some "text/html; charset=%SOUP-ENCODING%"),
         ("http-equiv", some "Content-type")]
      = some (some ("text/html; charset=" ++ placeholderCharset))) ∧
    ((⟨[Node.element "html" [] false
          [Node.element "head" [] false
            [Node.text " ",
             Node.element "meta"
               [("content", some "text/html; charset=%SOUP-ENCODING%"),
                ("http-equiv", some "Content-type")] true [],
             Node.text " ",
             Node.element "meta"
               [("content", some "ja"), ("http-equiv", some "Content-language")] false []],
           Node.element "body" [] false [Node.text "Shift-JIS markup goes here."]]],
        none⟩ : Document).encodeChars "utf-8"
      = "<html><head> <meta content=\"text/html; charset=utf-8\" http-equiv=\"Content-type\"/> <meta content=\"ja\" http-equiv=\"Content-language\"/></head><body>Shift-JIS markup goes here.</body></html>".toList) ∧
    ((⟨[Node.element "html" [] false
          [Node.element "head" [] false
            [Node.text " ",
             Node.element "meta"
               [("content", some "text/html; charset=%SOUP-ENCODING%"),
                ("http-equiv", some "Content-type")] true [],
             Node.text " ",
             Node.element "meta"
               [("content", some "ja"), ("http-equiv", some "Content-language")] false []],
           Node.element "body" [] false [Node.text "Shift-JIS markup goes here."]]],
        none⟩ : Document).encodeChars "euc-jp"
      = "<html><head> <meta content=\"text/html; charset=euc-jp\" http-equiv=\"Content-type\"/> <meta content=\"ja\" http-equiv=\"Content-language\"/></head><body>Shift-JIS markup goes here.</body></html>".toList) ∧
    ((⟨[Node.element "html" [] false
          [Node.element "head" [] false
            [Node.text " ",
             Node.element "meta"
               [("content", some "text/html; charset=%SOUP-ENCODING%"),
                ("http-equiv", some "Content-type")] true [],
             Node.text " ",
             Node.element "meta"
               [("content", some "ja"), ("http-equiv", some "Content-language")] false []],
           Node.element "body" [] false [Node.text "Shift-JIS markup goes here."]]],
        none⟩ : Document).decode
      = "<html><head> <meta content=\"text/html; charset=%SOUP-ENCODING%\" http-equiv=\"Content-type\"/> <meta content=\"ja\" http-equiv=\"Content-language\"/></head><body>Shift-JIS markup goes here.</body></html>") := by
  refine ⟨?_, fun v => rfl, rfl, rfl, rfl, rfl, rfl⟩
  intro eName u h
  show escAttr (replaceSub placeholderCharset.toList eName.toList
    (String.mk (u ++ placeholderCharset.toList)).toList) = escAttr (u ++ eName.toList)
  rw [show (String.mk (u ++ placeholderCharset.toList)).toList
    = u ++ placeholderCharset.toList from rfl]
  rw [replaceSub_placeholder u eName.toList h]

/-- Claim C8, witness: the general substitution clause applied to the
concrete stored value of the meta test. -/
theorem c8_witness :
    attrValChars (some "utf-8")
        (String.mk ("text/html; charset=".toList ++ placeholderCharset.toList))
      = escAttr ("text/html; charset=".toList ++ "utf-8".toList) :=
  c8_substitution_only_at_render_time.1 "utf-8" ("text/html; charset=".toList) (by decide)

/-! ## Rendering without substitution flags -/

mutual

theorem render_noSub : ∀ (n : Node), noSubN n = true →
    ∀ enc : Option String, renderNode enc n = renderNode none n
  | .element nm attrs sub ch, h, enc => by
    simp only [noSubN, Bool.and_eq_true, Bool.not_eq_true'] at h
    obtain ⟨hsub, hch⟩ := h
    subst hsub
    simp only [renderNode]
    rw [renders_noSub ch hch enc]
    simp
  | .text s, _, enc => rfl
  | .comment s, _, enc => rfl
  | .doctype s, _, enc => rfl
  | .cdata s, _, enc => rfl

theorem renders_noSub : ∀ (ns : List Node), noSubList ns = true →
    ∀ enc : Option String, renderNodes enc ns = renderNodes none ns
  | [], _, enc => rfl
  | n :: ns, h, enc => by
    simp only [noSubList, Bool.and_eq_true] at h
    simp only [renderNodes]
    rw [render_noSub n h.1 enc, renders_noSub ns h.2 enc]

end

/-- Claim C5, counterexample: for the Latin-1 bytes of `<p>`, parsing
with the explicit override records the override encoding, but the UTF-8
serialization of the resulting document is `<p></p>` and differs from
decoding the same bytes with the reference decoder and re-encoding to
UTF-8, so the claimed byte equality fails in general. -/
theorem c5_counterexample :
    parseBytes [60, 112, 62] (some latin1)
      = .ok ⟨[Node.element "p" [] false []], some "iso-8859-1"⟩ ∧
    Document.encodeUtf8 ⟨[Node.element "p" [] false []], some "iso-8859-1"⟩
      = [60, 112, 62, 60, 47, 112, 62] ∧
    utf8Enc (([60, 112, 62] : List Nat).map latin1.decodeByte) = [60, 112, 62] ∧
    Document.encodeUtf8 ⟨[Node.element "p" [] false []], some "iso-8859-1"⟩
      ≠ utf8Enc (([60, 112, 62] : List Nat).map latin1.decodeByte) :=
  ⟨rfl, rfl, rfl, by decide⟩

/-- Claim C5, amended: parsing bytes under an explicit single-byte
override `E` always records `original_encoding == E`; and for documents
without encoding substitutions whose tree re-serializes to exactly the
decoded input (as in the Hebrew test document), serializing to UTF-8
coincides with decoding the bytes with the reference decoder for `E`
and re-encoding to UTF-8. -/
theorem c5_override_encoding (bs : List Nat) (E : Enc) (d : Document)
    (h : parseBytes bs (some E) = .ok d) :
    d.originalEncoding = some E.encName ∧
    (noSubList d.contents = true → renderNodes none d.contents = bs.map E.decodeByte →
      d.encodeUtf8 = utf8Enc (bs.map E.decodeByte)) := by
  constructor
  · rw [parseBytes_ok h]
    rfl
  · intro hns hrt
    unfold Document.encodeUtf8 Document.encodeChars
    rw [renders_noSub d.contents hns (some "utf-8"), hrt]

/-- Claim C5, witness: the amended theorem applied to a concrete
Latin-1 document whose decoded text is in canonical form. -/
theorem c5_witness :
    (⟨[Node.element "p" [] false [Node.text "aé"]], some "iso-8859-1"⟩ : Document).originalEncoding
      = some "iso-8859-1" ∧
    (⟨[Node.element "p" [] false [Node.text "aé"]], some "iso-8859-1"⟩ : Document).encodeUtf8
      = utf8Enc (([60, 112, 62, 97, 233, 60, 47, 112, 62] : List Nat).map latin1.decodeByte) := by
  have h := c5_override_encoding [60, 112, 62, 97, 233, 60, 47, 112, 62] latin1
    ⟨[Node.element "p" [] false [Node.text "aé"]], some "iso-8859-1"⟩ rfl
  exact ⟨h.1, h.2 rfl rfl⟩

/-! ## Attribute ordering -/

theorem string_toList_inj : ∀ {a b : String}, a.toList = b.toList → a = b
  | ⟨_⟩, ⟨_⟩, h => congrArg String.mk h

theorem attrLt_trans {a b c : String} (h1 : attrLt a b = true) (h2 : attrLt b c = true) :
    attrLt a c = true := by
  simp only [attrLt, decide_eq_true_eq] at h1 h2 ⊢
  exact lt_trans h1 h2

theorem attrLt_asymm {a b : String} (h1 : attrLt a b = true) : attrLt b a = false := by
  simp only [attrLt, decide_eq_true_eq] at h1
  simp only [attrLt, decide_eq_false_iff_not]
  exact lt_asymm h1

theorem attrLt_ne {a b : String} (h1 : attrLt a b = true) : a ≠ b := by
  simp only [attrLt, decide_eq_true_eq] at h1
  intro he
  subst he
  exact lt_irrefl _ h1

theorem attrLt_total {a b : String} (h : ¬ a = b) :
    attrLt a b = true ∨ attrLt b a = true := by
  simp only [attrLt, decide_eq_true_eq]
  rcases lt_trichotomy a.toList b.toList with h1 | h1 | h1
  · exact Or.inl h1
  · exact absurd (string_toList_inj h1) h
  · exact Or.inr h1

theorem insertAttr_mem : ∀ {kv x : String × Option String}
    {l : List (String × Option String)}, x ∈ insertAttr kv l → x = kv ∨ x ∈ l
  | kv, x, [], h => by simpa [insertAttr] using h
  | kv, x, a :: rest, h => by
    simp only [insertAttr] at h
    split_ifs at h with h1 h2
    · rcases List.mem_cons.1 h with h | h
      · exact Or.inl h
      · exact Or.inr (List.mem_cons.2 (Or.inr h))
    · rcases List.mem_cons.1 h with h | h
      · exact Or.inl h
      · exact Or.inr h
    · rcases List.mem_cons.1 h with h | h
      · exact Or.inr (List.mem_cons.2 (Or.inl h))
      · rcases insertAttr_mem h with h | h
        · exact Or.inl h
        · exact Or.inr (List.mem_cons.2 (Or.inr h))

theorem insertAttr_pairwise : ∀ {kv : String × Option String}
    {l : List (String × Option String)}, l.Pairwise attrR →
    (insertAttr kv l).Pairwise attrR
  | _, [], _ => by simp [insertAttr]
  | kv, a :: rest, h => by
    rw [List.pairwise_cons] at h
    obtain ⟨ha, hrest⟩ := h
    simp only [insertAttr]
    split_ifs with h1 h2
    · rw [List.pairwise_cons]
      refine ⟨fun x hx => ?_, hrest⟩
      show attrLt kv.1 x.1 = true
      rw [h1]
      exact ha x hx
    · rw [List.pairwise_cons]
      refine ⟨?_, List.pairwise_cons.2 ⟨ha, hrest⟩⟩
      intro x hx
      rcases List.mem_cons.1 hx with h | h
      · subst h
        exact h2
      · exact attrLt_trans h2 (ha x h)
    · rw [List.pairwise_cons]
      refine ⟨?_, insertAttr_pairwise hrest⟩
      intro x hx
      rcases insertAttr_mem hx with h | h
      · rw [h]
        show attrLt a.1 kv.1 = true
        rcases attrLt_total (a := a.1) (b := kv.1) (fun he => h1 he.symm) with h3 | h3
        · exact h3
        · exact absurd h3 h2
      · exact ha x h

theorem foldl_insertAttr_pairwise : ∀ (raw acc : List (String × Option String)),
    acc.Pairwise attrR →
    (raw.foldl (fun acc kv => insertAttr kv acc) acc).Pairwise attrR
  | [], _, h => h
  | _ :: raw, _, h => foldl_insertAttr_pairwise raw _ (insertAttr_pairwise h)

/-- The duplicate-resolution step always yields a name-sorted list. -/
theorem normalizeAttrs_pairwise (raw : List (String × Option String)) :
    (normalizeAttrs raw).Pairwise attrR :=
  foldl_insertAttr_pairwise raw [] List.Pairwise.nil

theorem foldl_insertAttr_mem : ∀ (raw : List (String × Option String))
    {acc : List (String × Option String)} {x : String × Option String},
    x ∈ raw.foldl (fun acc kv => insertAttr kv acc) acc → x ∈ acc ∨ x ∈ raw
  | [], _, _, h => Or.inl h
  | kv :: raw, acc, x, h => by
    rcases foldl_insertAttr_mem raw h with h | h
    · rcases insertAttr_mem h with h | h
      · exact Or.inr (by simp [h])
      · exact Or.inl h
    · exact Or.inr (by simp [h])

/-- Every stored attribute entry came from the raw attribute list. -/
theorem normalizeAttrs_mem {raw : List (String × Option String)}
    {x : String × Option String} (h : x ∈ normalizeAttrs raw) : x ∈ raw := by
  rcases foldl_insertAttr_mem raw h with h | h
  · simp at h
  · exact h

theorem insertAttr_append_gt : ∀ {kv : String × Option String}
    {acc : List (String × Option String)}, (∀ x ∈ acc, attrR x kv) →
    insertAttr kv acc = acc ++ [kv]
  | _, [], _ => rfl
  | kv, a :: acc, h => by
    have ha : attrR a kv := h a (by simp)
    simp only [insertAttr]
    rw [if_neg, if_neg]
    · rw [insertAttr_append_gt (fun x hx => h x (by simp [hx]))]
      rfl
    · simp only [attrLt_asymm ha, Bool.false_eq_true, not_false_eq_true]
    · exact fun he => attrLt_ne ha he.symm

theorem foldl_insertAttr_sorted : ∀ (l acc : List (String × Option String)),
    (acc ++ l).Pairwise attrR →
    l.foldl (fun acc kv => insertAttr kv acc) acc = acc ++ l
  | [], acc, _ => by simp
  | kv :: l, acc, h => by
    have hacc : ∀ x ∈ acc, attrR x kv :=
      fun x hx => (List.pairwise_append.1 h).2.2 x hx kv (by simp)
    show l.foldl (fun acc kv => insertAttr kv acc) (insertAttr kv acc) = acc ++ kv :: l
    rw [insertAttr_append_gt hacc,
      foldl_insertAttr_sorted l (acc ++ [kv]) (by rw [List.append_assoc]; exact h)]
    simp

/-- On an already-sorted unique attribute list, duplicate resolution is
the identity. -/
theorem normalizeAttrs_sorted_id {attrs : List (String × Option String)}
    (h : attrs.Pairwise attrR) : normalizeAttrs attrs = attrs := by
  show attrs.foldl (fun acc kv => insertAttr kv acc) [] = attrs
  rw [foldl_insertAttr_sorted attrs [] (by simpa using h)]
  simp

/-! ## Whitespace collapsing -/

theorem toList_mk (l : List Char) : (String.mk l).toList = l := rfl

theorem mk_toList (s : String) : String.mk s.toList = s := rfl

theorem collapseWs_ne_nil : ∀ {l : List Char}, l ≠ [] → collapseWs l ≠ []
  | [], h => absurd rfl h
  | [_], _ => by
    simp only [collapseWs]
    split <;> simp
  | _ :: c2 :: cs, _ => by
    simp only [collapseWs]
    split
    · exact collapseWs_ne_nil (by simp)
    · simp

theorem collapseWs_head_nws : ∀ {c2 : Char} (cs : List Char), isWs c2 = false →
    ∃ t, collapseWs (c2 :: cs) = c2 :: t
  | c2, [], h => ⟨[], by simp [collapseWs, h]⟩
  | c2, c3 :: cs, h => ⟨collapseWs (c3 :: cs), by simp [collapseWs, h]⟩

theorem canonWs_cons : ∀ {a : Char} {l : List Char}, canonWs l = true →
    (!isWs a || a = ' ') = true → (∀ b t, l = b :: t → (isWs a && isWs b) = false) →
    canonWs (a :: l) = true
  | _, [], _, h2, _ => h2
  | a, b :: t, h1, h2, h3 => by
    simp only [canonWs]
    rw [h1, h2, h3 b t rfl]
    rfl

theorem canonWs_collapseWs : ∀ l : List Char, canonWs (collapseWs l) = true
  | [] => rfl
  | [c] => by
    simp only [collapseWs]
    split
    · decide
    · rename_i h
      simp only [Bool.not_eq_true] at h
      simp [canonWs, h]
  | c :: c2 :: cs => by
    have ih := canonWs_collapseWs (c2 :: cs)
    simp only [collapseWs]
    split
    · exact ih
    · rename_i h
      by_cases hc : isWs c = true
      · have hc2 : isWs c2 = false := by
          cases h2 : isWs c2 with
          | false => rfl
          | true => exact absurd (by simp [hc, h2]) h
        obtain ⟨t, ht⟩ := collapseWs_head_nws cs hc2
        rw [if_pos hc, ht]
        apply canonWs_cons (ht ▸ ih)
        · decide
        · intro b t2 he
          cases he
          rw [hc2]
          simp
      · rw [if_neg hc]
        simp only [Bool.not_eq_true] at hc
        apply canonWs_cons ih
        · rw [hc]
          rfl
        · intro b t2 _
          rw [hc]
          rfl

theorem collapseWs_canon_id : ∀ {l : List Char}, canonWs l = true → collapseWs l = l
  | [], _ => rfl
  | [c], h => by
    simp only [canonWs] at h
    simp only [collapseWs]
    split
    · rename_i hw
      simp only [Bool.or_eq_true] at h
      rcases h with h1 | h1
      · rw [hw] at h1
        exact absurd h1 (by decide)
      · rw [of_decide_eq_true h1]
    · rfl
  | c :: c2 :: cs, h => by
    simp only [canonWs, Bool.and_eq_true] at h
    obtain ⟨⟨h1, h2⟩, h3⟩ := h
    have hcc : (isWs c && isWs c2) = false := by rwa [Bool.not_eq_true'] at h2
    simp only [collapseWs, hcc, Bool.false_eq_true, if_false]
    rw [collapseWs_canon_id h3]
    by_cases hw : isWs c = true
    · simp only [Bool.or_eq_true] at h1
      rcases h1 with h4 | h4
      · rw [hw] at h4
        exact absurd h4 (by decide)
      · rw [if_pos hw, of_decide_eq_true h4]
    · rw [if_neg hw]

/-- Collapsing whitespace is idempotent. -/
theorem collapseWs_idem (l : List Char) : collapseWs (collapseWs l) = collapseWs l :=
  collapseWs_canon_id (canonWs_collapseWs l)

/-! ## Substring delimiters -/

theorem occursSub_nil {d : List Char} (hd : d ≠ []) : occursSub d [] = false := by
  cases d with
  | nil => exact absurd rfl hd
  | cons a as => rfl

theorem takeUntilSub_fst_pre (d : List Char) : ∀ l : List Char, (takeUntilSub d l).1 <+: l
  | [] => by simp [takeUntilSub]
  | c :: cs => by
    simp only [takeUntilSub]
    split
    · simp
    · simp only [cons1]
      obtain ⟨t, ht⟩ := takeUntilSub_fst_pre d cs
      exact ⟨t, by rw [List.cons_append, ht]⟩

theorem isPrefixOf_trans_pre {d y cs : List Char} {c : Char}
    (h : d.isPrefixOf (c :: y) = true) (hy : y <+: cs) : d.isPrefixOf (c :: cs) = true := by
  rw [List.isPrefixOf_iff_prefix] at h ⊢
  obtain ⟨t, ht⟩ := hy
  exact h.trans ⟨t, by rw [List.cons_append, ht]⟩

theorem occursSub_takeUntilSub (d : List Char) (hd : d ≠ []) :
    ∀ l : List Char, occursSub d (takeUntilSub d l).1 = false
  | [] => by
    simp only [takeUntilSub]
    exact occursSub_nil hd
  | c :: cs => by
    simp only [takeUntilSub]
    split
    · exact occursSub_nil hd
    · rename_i hp
      simp only [cons1]
      have h2 := occursSub_takeUntilSub d hd cs
      have h1 : d.isPrefixOf (c :: (takeUntilSub d cs).1) = false := by
        cases hq : d.isPrefixOf (c :: (takeUntilSub d cs).1) with
        | false => rfl
        | true =>
          exact absurd (isPrefixOf_trans_pre hq (takeUntilSub_fst_pre d cs)) hp
      show (d.isPrefixOf (c :: (takeUntilSub d cs).1)
        || occursSub d (takeUntilSub d cs).1) = false
      rw [h1, h2]
      rfl

theorem prefix_of_append_of_le {d x y : List Char} (h : d <+: x ++ y)
    (hl : d.length ≤ x.length) : d <+: x := by
  have h1 := List.prefix_iff_eq_take.1 h
  rw [List.take_append_eq_append_take, Nat.sub_eq_zero_of_le hl, List.take_zero,
    List.append_nil] at h1
  exact h1 ▸ List.take_prefix _ _

theorem aperiodic_no_straddle {d t r : List Char} (hap : aperiodic d = true)
    (ht : t ≠ []) (hlt : t.length < d.length) :
    d.isPrefixOf (t ++ (d ++ r)) = false := by
  cases hq : d.isPrefixOf (t ++ (d ++ r)) with
  | false => rfl
  | true =>
    exfalso
    have hpre : d <+: t ++ (d ++ r) := List.isPrefixOf_iff_prefix.1 hq
    have hk0 : 0 < t.length := List.length_pos.2 ht
    have hap2 := List.all_eq_true.1 hap t.length (List.mem_range.2 (by omega))
    simp only [Bool.or_eq_true, beq_iff_eq, Bool.not_eq_true'] at hap2
    rcases hap2 with h0 | hinner
    · omega
    · have hall : ∀ i ∈ List.range (d.length - t.length),
          (d.getD (i + t.length) ' ' == d.getD i ' ') = true := by
        intro i hi
        rw [List.mem_range] at hi
        have hi1 : i + t.length < d.length := by omega
        have hi2 : i < d.length := by omega
        have hlen : i + t.length < (t ++ (d ++ r)).length := by
          simp only [List.length_append]
          omega
        have e1 : (t ++ (d ++ r))[i + t.length] = d[i] := by
          rw [List.getElem_append_right (by omega)]
          have hidx : i + t.length - t.length = i := by omega
          simp only [hidx]
          exact List.getElem_append_left (by omega)
        have e2 : (t ++ (d ++ r))[i + t.length] = d[i + t.length] :=
          (hpre.getElem hi1).symm
        rw [List.getD_eq_getElem _ _ hi1, List.getD_eq_getElem _ _ hi2, beq_iff_eq,
          ← e2, e1]
      exact absurd (List.all_eq_true.2 hall) (by rw [hinner]; simp)

theorem takeUntilSub_exact {d : List Char} (hap : aperiodic d = true) (hd : d ≠ []) :
    ∀ (s r : List Char), occursSub d s = false →
    takeUntilSub d (s ++ (d ++ r)) = (s, r)
  | [], r, _ => by
    cases d with
    | nil => exact absurd rfl hd
    | cons a d2 =>
      show takeUntilSub (a :: d2) ((a :: d2) ++ r) = ([], r)
      simp only [List.cons_append, takeUntilSub]
      rw [if_pos (List.isPrefixOf_iff_prefix.2 ⟨r, by simp⟩)]
      show ([], ((a :: d2) ++ r).drop (a :: d2).length) = ([], r)
      rw [List.drop_left]
  | c :: s2, r, ho => by
    have ho1 : d.isPrefixOf (c :: s2) = false ∧ occursSub d s2 = false := by
      have hu : occursSub d (c :: s2) = (d.isPrefixOf (c :: s2) || occursSub d s2) := rfl
      rw [hu] at ho
      exact Bool.or_eq_false_iff.1 ho
    show takeUntilSub d (c :: (s2 ++ (d ++ r))) = (c :: s2, r)
    simp only [takeUntilSub]
    rw [if_neg ?hne]
    · simp only [cons1]
      rw [takeUntilSub_exact hap hd s2 r ho1.2]
    case hne =>
      intro hq
      by_cases hl : d.length ≤ (c :: s2).length
      · have hq2 : d <+: (c :: s2) ++ (d ++ r) := List.isPrefixOf_iff_prefix.1 hq
        have := List.isPrefixOf_iff_prefix.2 (prefix_of_append_of_le hq2 hl)
        rw [ho1.1] at this
        exact absurd this (by simp)
      · have hns := aperiodic_no_straddle (t := c :: s2) (r := r) hap (by simp) (by omega)
        rw [show c :: (s2 ++ (d ++ r)) = (c :: s2) ++ (d ++ r) from rfl] at hq
        rw [hns] at hq
        exact absurd hq (by simp)

/-! ## Charset munging -/

theorem occursSub_cons (d : List Char) (c : Char) (cs : List Char) :
    occursSub d (c :: cs) = (d.isPrefixOf (c :: cs) || occursSub d cs) := rfl

theorem occursSub_append_mid {d : List Char} (hd : d ≠ []) :
    ∀ (a b : List Char), occursSub d (a ++ (d ++ b)) = true
  | [], b => by
    cases d with
    | nil => exact absurd rfl hd
    | cons x xs =>
      rw [List.nil_append, List.cons_append, occursSub_cons]
      rw [List.isPrefixOf_iff_prefix.2 ⟨b, by rw [List.cons_append]⟩]
      rfl
  | c :: a2, b => by
    rw [List.cons_append, occursSub_cons, occursSub_append_mid hd a2 b, Bool.or_true]

/-- Replacing the declared charset by the placeholder is idempotent. -/
theorem substCharsetVal_idem (v : String) :
    substCharsetVal (substCharsetVal v) = substCharsetVal v := by
  cases h : occursSub charsetKey v.toList with
  | false =>
    have h0 : substCharsetVal v = v := by
      unfold substCharsetVal
      rw [if_neg (by rw [h]; simp)]
    rw [h0, h0]
  | true =>
    have h1 : substCharsetVal v = String.mk
        ((takeUntilSub charsetKey v.toList).1 ++ charsetKey ++ placeholderCharset.toList) := by
      unfold substCharsetVal
      rw [if_pos (by rw [h])]
    rw [h1]
    have hkey : charsetKey ≠ [] := by decide
    have hap : aperiodic charsetKey = true := by decide
    have h2 : occursSub charsetKey (String.mk ((takeUntilSub charsetKey v.toList).1
        ++ charsetKey ++ placeholderCharset.toList)).toList = true := by
      rw [toList_mk, List.append_assoc]
      exact occursSub_append_mid hkey _ _
    have h3 : takeUntilSub charsetKey (String.mk ((takeUntilSub charsetKey v.toList).1
        ++ charsetKey ++ placeholderCharset.toList)).toList
        = ((takeUntilSub charsetKey v.toList).1, placeholderCharset.toList) := by
      rw [toList_mk, List.append_assoc]
      exact takeUntilSub_exact hap hkey _ _ (occursSub_takeUntilSub charsetKey hkey _)
    unfold substCharsetVal
    rw [if_pos h2, h3]

theorem lookupAttr_munge_ne {k : String} (hk : ¬ k = "content")
    (l : List (String × Option String)) :
    lookupAttr k (l.map (fun a =>
      if a.1 = "content" then (a.1, a.2.map substCharsetVal) else a)) = lookupAttr k l := by
  induction l with
  | nil => rfl
  | cons a l ih =>
    rw [List.map_cons]
    by_cases hc : a.1 = "content"
    · rw [if_pos hc]
      show (if a.1 = k then some (a.2.map substCharsetVal)
        else lookupAttr k (l.map _)) = (if a.1 = k then some a.2 else lookupAttr k l)
      have hak : ¬ (a.1 = k) := fun he2 => hk (he2 ▸ hc)
      rw [if_neg hak, if_neg hak]
      exact ih
    · rw [if_neg hc]
      show (if a.1 = k then some a.2
        else lookupAttr k (l.map _)) = (if a.1 = k then some a.2 else lookupAttr k l)
      split_ifs with h1
      · rfl
      · exact ih

theorem lookupAttr_munge_content (l : List (String × Option String)) :
    lookupAttr "content" (l.map (fun a =>
      if a.1 = "content" then (a.1, a.2.map substCharsetVal) else a)) =
      (lookupAttr "content" l).map (fun ov => ov.map substCharsetVal) := by
  induction l with
  | nil => rfl
  | cons a l ih =>
    rw [List.map_cons]
    by_cases hc : a.1 = "content"
    · rw [if_pos hc]
      show (if a.1 = "content" then some (a.2.map substCharsetVal)
          else lookupAttr "content" (l.map _))
        = ((if a.1 = "content" then some a.2 else lookupAttr "content" l).map
            (fun ov => ov.map substCharsetVal))
      rw [if_pos hc, if_pos hc]
      rfl
    · rw [if_neg hc]
      show (if a.1 = "content" then some a.2
          else lookupAttr "content" (l.map _))
        = ((if a.1 = "content" then some a.2 else lookupAttr "content" l).map
            (fun ov => ov.map substCharsetVal))
      rw [if_neg hc, if_neg hc]
      exact ih

theorem isCharsetMeta_munged {nm : String} {attrs : List (String × Option String)}
    (h : isCharsetMeta nm attrs = true) :
    isCharsetMeta nm (attrs.map (fun a =>
      if a.1 = "content" then (a.1, a.2.map substCharsetVal) else a)) = true := by
  simp only [isCharsetMeta, Bool.and_eq_true] at h ⊢
  obtain ⟨⟨h1, h2⟩, h3⟩ := h
  refine ⟨⟨h1, ?_⟩, ?_⟩
  · rw [lookupAttr_munge_ne (by decide)]
    exact h2
  · rw [lookupAttr_munge_content]
    rcases hl : lookupAttr "content" attrs with _ | ov
    · rw [hl] at h3
      simp at h3
    · rcases ov with _ | v
      · rw [hl] at h3
        simp at h3
      · rw [hl] at h3
        have hocc : occursSub charsetKey v.toList = true := h3
        have hkey : charsetKey ≠ [] := by decide
        show occursSub charsetKey (substCharsetVal v).toList = true
        have hs : substCharsetVal v = String.mk ((takeUntilSub charsetKey v.toList).1
            ++ charsetKey ++ placeholderCharset.toList) := by
          unfold substCharsetVal
          rw [if_pos (by rw [hocc])]
        rw [hs, toList_mk, List.append_assoc]
        exact occursSub_append_mid hkey _ _

/-- Munging a munged attribute list changes nothing and reports the
same flag. -/
theorem mungeAttrs_idem (nm : String) (attrs : List (String × Option String)) :
    mungeAttrs nm (mungeAttrs nm attrs).1 = ((mungeAttrs nm attrs).1, (mungeAttrs nm attrs).2) := by
  cases hc : isCharsetMeta nm attrs with
  | false => simp [mungeAttrs, hc]
  | true =>
    have hm : mungeAttrs nm attrs = (attrs.map (fun a =>
        if a.1 = "content" then (a.1, a.2.map substCharsetVal) else a), true) := by
      simp [mungeAttrs, hc]
    rw [hm]
    simp only [mungeAttrs, isCharsetMeta_munged hc, if_true]
    rw [List.map_map]
    refine congrArg (fun t => (t, true)) (List.map_congr_left ?_)
    intro a _
    by_cases h1 : a.1 = "content"
    · simp only [Function.comp_apply, h1, if_true]
      cases a.2 with
      | none => rfl
      | some v => simp [substCharsetVal_idem v]
    · simp only [Function.comp_apply, h1, if_false]

/-- Munging preserves attribute-list well-formedness. -/
theorem mungeAttrs_wfP {nm : String} {attrs : List (String × Option String)}
    (h : attrsWfP attrs) : attrsWfP (mungeAttrs nm attrs).1 := by
  cases hc : isCharsetMeta nm attrs with
  | false => simpa [mungeAttrs, hc] using h
  | true =>
    obtain ⟨h1, h2⟩ := h
    simp only [mungeAttrs, hc, if_true]
    constructor
    · intro a ha
      obtain ⟨b, hb, he⟩ := List.mem_map.1 ha
      have : a.1 = b.1 := by
        rw [← he]
        split <;> rfl
      rw [this]
      exact h1 b hb
    · rw [List.pairwise_map]
      refine h2.imp ?_
      intro a b hab
      show attrLt _ _ = true
      have e1 : (if a.1 = "content" then (a.1, a.2.map substCharsetVal) else a).1 = a.1 := by
        split <;> rfl
      have e2 : (if b.1 = "content" then (b.1, b.2.map substCharsetVal) else b).1 = b.1 := by
        split <;> rfl
      rw [e1, e2]
      exact hab

/-! ## Event well-formedness from the tokenizer -/

theorem takeWhile_cons_inv {α : Type} {p : α → Bool} :
    ∀ {l : List α} {c : α} {t : List α}, l.takeWhile p = c :: t →
    ∃ t2, l = c :: t2 ∧ p c = true
  | [], _, _, h => by simp at h
  | a :: as, c, t, h => by
    rw [List.takeWhile_cons] at h
    split_ifs at h with hp
    cases h
    exact ⟨as, rfl, hp⟩

theorem lowerChar_alpha {c : Char} (h : isAlphaB c = true) :
    isLowerAlpha (lowerChar c) = true := by
  by_cases hu : isUpperAlpha c = true
  · have ht := lowerChar_upper_toNat hu
    have hb := isUpperAlpha_toNat hu
    simp only [isLowerAlpha, Bool.and_eq_true, decide_eq_true_eq, ht]
    exact ⟨by omega, by omega⟩
  · rw [lowerChar_eq_self (by simpa using hu)]
    simp only [isAlphaB, Bool.or_eq_true] at h
    rcases h with h | h
    · exact absurd h hu
    · exact h

theorem nameWf_mkName {c : Char} {cs : List Char} (h : isAlphaB c = true) :
    nameWf (mkName ((c :: cs).takeWhile isNameChar)) := by
  have hc : isNameChar c = true := by simp [isNameChar, h]
  rw [List.takeWhile_cons, if_pos (by rw [hc])]
  show nameWf (String.mk (lowerChar c :: (cs.takeWhile isNameChar).map lowerChar))
  show isLowerAlpha (lowerChar c) = true ∧
    ∀ x ∈ (cs.takeWhile isNameChar).map lowerChar, isLowerNameChar x = true
  refine ⟨lowerChar_alpha h, ?_⟩
  intro x hx
  obtain ⟨y, hy, he⟩ := List.mem_map.1 hx
  rw [← he]
  exact lowerChar_isLower (mem_takeWhile_sat hy)

theorem attrNameWf_mkName {c : Char} {cs : List Char} (h : isNameChar c = true) :
    attrNameWf (mkName ((c :: cs).takeWhile isNameChar)) := by
  rw [List.takeWhile_cons, if_pos (by rw [h])]
  show attrNameWf (String.mk (lowerChar c :: (cs.takeWhile isNameChar).map lowerChar))
  constructor
  · rw [toList_mk]
    simp
  · rw [toList_mk]
    intro x hx
    rcases List.mem_cons.1 hx with hx | hx
    · rw [hx]
      exact lowerChar_isLower h
    · obtain ⟨y, hy, he⟩ := List.mem_map.1 hx
      rw [← he]
      exact lowerChar_isLower (mem_takeWhile_sat hy)

theorem lexTextF_fst_ne {f : Nat} {c : Char} {cs : List Char} (hc : ¬ c = '<') :
    (lexTextF (f + 1) (c :: cs)).1 ≠ [] := by
  simp only [lexTextF, if_neg hc]
  split_ifs with h2
  · cases he : entityAt cs with
    | some p => simp [cons1]
    | none => simp [cons1]
  · simp [cons1]

theorem lexAttrsF_names_wf : ∀ {f : Nat} {l : List Char} {a s r},
    lexAttrsF f l = some (a, s, r) → ∀ kv ∈ a, attrNameWf kv.1
  | 0, l, a, s, r, h => by simp [lexAttrsF] at h
  | _ + 1, [], a, s, r, h => by simp [lexAttrsF] at h
  | f + 1, c :: cs, a, s, r, h => by
    simp only [lexAttrsF] at h
    split_ifs at h with h1 h2 h3 h4
    · cases h
      intro kv hkv
      simp at hkv
    · rcases cs with _ | ⟨d, cs2⟩
      · simp at h
      · simp only at h
        split_ifs at h with hd
        · cases h
          intro kv hkv
          simp at hkv
        · exact lexAttrsF_names_wf h
    · exact lexAttrsF_names_wf h
    · have hnm : attrNameWf (mkName ((c :: cs).takeWhile isNameChar)) := attrNameWf_mkName h4
      split at h
      · split at h
        · simp at h
        · split_ifs at h with hq
          · split at h
            · rw [Option.map_eq_some'] at h
              obtain ⟨p2, hv, he2⟩ := h
              have ha := congrArg (fun t => t.1) he2
              simp only at ha
              intro kv hkv
              rw [← ha] at hkv
              rcases List.mem_cons.1 hkv with hkv | hkv
              · rw [hkv]
                exact hnm
              · exact lexAttrsF_names_wf hv kv hkv
            · simp at h
          · rw [Option.map_eq_some'] at h
            obtain ⟨p2, hv, he2⟩ := h
            have ha := congrArg (fun t => t.1) he2
            simp only at ha
            intro kv hkv
            rw [← ha] at hkv
            rcases List.mem_cons.1 hkv with hkv | hkv
            · rw [hkv]
              exact hnm
            · exact lexAttrsF_names_wf hv kv hkv
      · rw [Option.map_eq_some'] at h
        obtain ⟨p2, hv, he2⟩ := h
        have ha := congrArg (fun t => t.1) he2
        simp only at ha
        intro kv hkv
        rw [← ha] at hkv
        rcases List.mem_cons.1 hkv with hkv | hkv
        · rw [hkv]
          exact hnm
        · exact lexAttrsF_names_wf hv kv hkv
    · exact lexAttrsF_names_wf h

/-- Every event produced by one tokenizer step is well-formed. -/
theorem tokStep_stepWf : ∀ l : List Char, stepWf (tokStep l)
  | [] => by simp [tokStep, stepWf]
  | c :: cs => by
    simp only [tokStep]
    split_ifs with hc
    · cases cs with
      | nil =>
        simp only [stepWf]
        intro e he
        rcases List.mem_singleton.1 he with rfl
        show (String.mk ['<']).toList ≠ []
        simp
      | cons d cs2 =>
        simp only
        split_ifs with hd hbang hcomm hdoct hns hcd halpha
        · cases cs2 with
          | nil => simp [stepWf]
          | cons e cs3 =>
            simp only
            split_ifs with he
            · split
              · simp only [stepWf]
                exact nameWf_mkName he
              · simp [stepWf]
            · split
              · simp [stepWf]
              · simp [stepWf]
        · simp only [stepWf]
          show occursSub dashGt
            (String.mk (takeUntilSub dashGt (cs2.drop 2)).1).toList = false
          rw [toList_mk]
          exact occursSub_takeUntilSub dashGt (by decide) _
        · simp [stepWf]
        · simp only [stepWf]
          refine ⟨?_, ?_, ?_⟩
          · intro x hx
            rw [toList_mk] at hx
            have hs := mem_takeWhile_sat hx
            simpa using hs
          · intro x t hxt
            rw [toList_mk] at hxt
            obtain ⟨t2, ht2, hp⟩ := takeWhile_cons_inv hxt
            exact dropWhile_head_false ht2
          · rw [toList_mk]
            exact Bool.not_eq_true _ ▸ hns
        · simp only [stepWf]
          show occursSub cdataClose
            (String.mk (takeUntilSub cdataClose (cs2.drop 7)).1).toList = false
          rw [toList_mk]
          exact occursSub_takeUntilSub cdataClose (by decide) _
        · simp [stepWf]
        · split
          · rename_i attrs sc rest hlx
            simp only [stepWf]
            exact ⟨nameWf_mkName halpha, lexAttrsF_names_wf hlx⟩
          · simp [stepWf]
        · simp only [stepWf]
          show (String.mk ['<']).toList ≠ []
          simp
    · simp only [stepWf]
      show (String.mk (lexText (c :: cs)).1).toList ≠ []
      rw [toList_mk]
      have h1 : lexText (c :: cs) = lexTextF (cs.length + 1 + 1) (c :: cs) := by
        simp [lexText]
      rw [h1]
      exact lexTextF_fst_ne hc

theorem tokenizeF_all_wf : ∀ (f : Nat) (l : List Char) {evs : List Event},
    tokenizeF f l = .ok evs → ∀ e ∈ evs, evWf e
  | 0, l, evs, h => by
    injection h with h
    subst h
    intro e he
    simp at he
  | f + 1, l, evs, h => by
    rw [tokenizeF_succ] at h
    cases ht : tokStep l with
    | fail =>
      rw [ht] at h
      cases h
    | fin evs2 =>
      rw [ht] at h
      injection h with h
      subst h
      have hw := tokStep_stepWf l
      rw [ht] at hw
      exact hw
    | skip r =>
      rw [ht] at h
      exact tokenizeF_all_wf f r h
    | step ev r =>
      rw [ht] at h
      rw [except_map_ok] at h
      obtain ⟨evs2, hv, he⟩ := h
      intro e he2
      rw [← he] at he2
      rcases List.mem_cons.1 he2 with he2 | he2
      · rw [he2]
        have hw := tokStep_stepWf l
        rw [ht] at hw
        exact hw
      · exact tokenizeF_all_wf f r hv e he2

/-- Every event of a successful tokenization is well-formed. -/
theorem tokenize_all_wf {l : List Char} {evs : List Event} (h : tokenize l = .ok evs) :
    ∀ e ∈ evs, evWf e := tokenizeF_all_wf _ l h

/-! ## Assembler state invariant -/

theorem wfL_forall : ∀ (b : Bool) (ns : List Node), wfL b ns ↔ ∀ n ∈ ns, wfN b n
  | _, [] => by
    show True ↔ _
    simp
  | b, n :: ns => by
    show (wfN b n ∧ wfL b ns) ↔ _
    rw [wfL_forall b ns]
    simp [List.forall_mem_cons]

theorem pwStack_cons (f : Frame) (fs : List Frame) :
    pwStack (f :: fs) = (preserveTags.contains f.fname || pwStack fs) := by
  simp [pwStack]

theorem closeFrame_wf {f : Frame} {b : Bool} (hf : frameWf f)
    (hch : ∀ n ∈ f.childrenRev, wfN (preserveTags.contains f.fname || b) n) :
    wfN b (closeFrame f) := by
  obtain ⟨h1, h2, h3⟩ := hf
  show nameWf f.fname ∧ attrsWfP f.fattrs ∧
    mungeAttrs f.fname f.fattrs = (f.fattrs, f.fsub) ∧
    wfL (b || preserveTags.contains f.fname) f.childrenRev.reverse
  refine ⟨h1, h2, h3, ?_⟩
  rw [wfL_forall]
  intro n hn
  rw [List.mem_reverse] at hn
  rw [Bool.or_comm]
  exact hch n hn

theorem appendNode_wf : ∀ {stk : List Frame} {root : List Node} {n : Node},
    stWf ⟨stk, root⟩ → wfN (pwStack stk) n → stWf (appendNode ⟨stk, root⟩ n)
  | [], root, n, h, hn => by
    refine ⟨trivial, ?_⟩
    intro m hm
    rcases List.mem_cons.1 hm with hm | hm
    · rw [hm]
      exact hn
    · exact h.2 m hm
  | f :: fs, root, n, h, hn => by
    obtain ⟨⟨hf, hch, hfs⟩, hroot⟩ := h
    refine ⟨⟨hf, ?_, hfs⟩, hroot⟩
    intro m hm
    rcases List.mem_cons.1 hm with hm | hm
    · rw [hm]
      exact hn
    · exact hch m hm

theorem popToAux_wf (s : String) : ∀ (f : Frame) (fs : List Frame) (root : List Node),
    frameWf f → (∀ n ∈ f.childrenRev, wfN (pwStack (f :: fs)) n) →
    stackWfAux fs → (∀ n ∈ root, wfN false n) →
    stackWfAux (popToAux s f fs root).1 ∧
      ∀ n ∈ (popToAux s f fs root).2, wfN false n
  | f, [], root, hf, hch, _, hroot => by
    refine ⟨trivial, ?_⟩
    intro n hn
    rcases List.mem_cons.1 hn with hn | hn
    · rw [hn]
      refine closeFrame_wf hf ?_
      intro m hm
      have h2 := hch m hm
      rwa [pwStack_cons] at h2
    · exact hroot n hn
  | f, g :: gs, root, hf, hch, hstk, hroot => by
    obtain ⟨hg, hgch, hgs⟩ := hstk
    simp only [popToAux]
    split_ifs with hname
    · refine ⟨⟨hg, ?_, hgs⟩, hroot⟩
      intro n hn
      rcases List.mem_cons.1 hn with hn | hn
      · rw [hn]
        refine closeFrame_wf hf ?_
        intro m hm
        have h2 := hch m hm
        rwa [pwStack_cons] at h2
      · exact hgch n hn
    · refine popToAux_wf s _ gs root hg ?_ hgs hroot
      intro n hn
      rcases List.mem_cons.1 hn with hn | hn
      · rw [hn]
        refine closeFrame_wf hf ?_
        intro m hm
        have h2 := hch m hm
        rwa [pwStack_cons] at h2
      · exact hgch n hn

theorem closeAllAux_wf : ∀ (f : Frame) (fs : List Frame) (root : List Node),
    frameWf f → (∀ n ∈ f.childrenRev, wfN (pwStack (f :: fs)) n) →
    stackWfAux fs → (∀ n ∈ root, wfN false n) →
    ∀ n ∈ closeAllAux f fs root, wfN false n
  | f, [], root, hf, hch, _, hroot => by
    intro n hn
    rcases List.mem_cons.1 hn with hn | hn
    · rw [hn]
      refine closeFrame_wf hf ?_
      intro m hm
      have h2 := hch m hm
      rwa [pwStack_cons] at h2
    · exact hroot n hn
  | f, g :: gs, root, hf, hch, hstk, hroot => by
    obtain ⟨hg, hgch, hgs⟩ := hstk
    refine closeAllAux_wf _ gs root hg ?_ hgs hroot
    intro n hn
    rcases List.mem_cons.1 hn with hn | hn
    · rw [hn]
      refine closeFrame_wf hf ?_
      intro m hm
      have h2 := hch m hm
      rwa [pwStack_cons] at h2
    · exact hgch n hn

theorem finalize_wf : ∀ {st : AsmState}, stWf st → ∀ n ∈ finalize st, wfN false n := by
  intro st h n hn
  obtain ⟨hstk, hroot⟩ := h
  rcases st with ⟨stk, root⟩
  cases stk with
  | nil =>
    simp only [finalize] at hn
    rw [List.mem_reverse] at hn
    exact hroot n hn
  | cons f fs =>
    simp only [finalize] at hn
    rw [List.mem_reverse] at hn
    obtain ⟨hf, hch, hfs⟩ := hstk
    exact closeAllAux_wf f fs root hf hch hfs hroot n hn

theorem processEvent_wf {so : Option Strainer} {st : AsmState} {ev : Event}
    (h : stWf st) (he : evWf ev) : stWf (processEvent so st ev) := by
  rcases st with ⟨stk, root⟩
  cases ev with
  | startTag nm attrs sc =>
    obtain ⟨hnm, hattrs⟩ := he
    show stWf (handleStart so nm attrs sc ⟨stk, root⟩)
    have hwfp : attrsWfP (mungeAttrs nm (normalizeAttrs attrs)).1 :=
      mungeAttrs_wfP ⟨fun a ha => hattrs a (normalizeAttrs_mem ha),
        normalizeAttrs_pairwise attrs⟩
    simp only [handleStart]
    split_ifs with hdrop hsc
    · exact h
    · refine appendNode_wf h ?_
      exact ⟨hnm, hwfp, mungeAttrs_idem nm (normalizeAttrs attrs), trivial⟩
    · refine ⟨⟨⟨hnm, hwfp, mungeAttrs_idem nm (normalizeAttrs attrs)⟩, ?_, h.1⟩, h.2⟩
      intro m hm
      simp at hm
  | endTag nm =>
    show stWf (handleEnd nm ⟨stk, root⟩)
    cases stk with
    | nil => exact h
    | cons f fs =>
      simp only [handleEnd]
      split_ifs with hcont
      · obtain ⟨⟨hf, hch, hfs⟩, hroot⟩ := h
        exact popToAux_wf nm f fs root hf hch hfs hroot
      · exact h
  | chars s =>
    show stWf (handleText so s ⟨stk, root⟩)
    simp only [handleText]
    split_ifs with hp h1 h2
    · exact h
    · refine appendNode_wf h ?_
      exact ⟨he, Or.inl hp⟩
    · exact h
    · refine appendNode_wf h ?_
      constructor
      · rw [toList_mk]
        exact collapseWs_ne_nil he
      · refine Or.inr ?_
        rw [toList_mk]
        exact collapseWs_idem s.toList
  | comm s =>
    show stWf (handleLeaf so Node.comment s ⟨stk, root⟩)
    simp only [handleLeaf]
    split_ifs with hdrop
    · exact h
    · exact appendNode_wf h he
  | doctypeEv s =>
    show stWf (handleLeaf so Node.doctype s ⟨stk, root⟩)
    simp only [handleLeaf]
    split_ifs with hdrop
    · exact h
    · exact appendNode_wf h he
  | cdataEv s =>
    show stWf (handleLeaf so Node.cdata s ⟨stk, root⟩)
    simp only [handleLeaf]
    split_ifs with hdrop
    · exact h
    · exact appendNode_wf h he

theorem assembleEvents_wf : ∀ (so : Option Strainer) (evs : List Event) (st : AsmState),
    stWf st → (∀ e ∈ evs, evWf e) → stWf (assembleEvents so evs st)
  | _, [], _, h, _ => h
  | so, e :: evs, st, h, he =>
    assembleEvents_wf so evs _ (processEvent_wf h (he e (by simp)))
      (fun x hx => he x (by simp [hx]))

/-- Every node of a parsed document is in normal form. -/
theorem parse_wf {s : String} {d : Document} (h : parse s = .ok d) :
    ∀ n ∈ d.contents, wfN false n := by
  unfold parse parseWith at h
  rw [except_map_ok] at h
  obtain ⟨evs, hv, he⟩ := h
  have hall := tokenize_all_wf hv
  rw [← he]
  show ∀ n ∈ parseEvents none evs, wfN false n
  have hst : stWf (assembleEvents none evs emptyState) :=
    assembleEvents_wf none evs emptyState
      ⟨trivial, by intro n hn; simp [emptyState] at hn⟩ hall
  exact finalize_wf hst

/-! ## Sorted attributes from the invariant -/

mutual

theorem wfN_attrsSorted : ∀ (b : Bool) (n : Node), wfN b n → attrsSortedN n
  | b, .element nm attrs sub ch, h => by
    obtain ⟨hnm, ⟨hnames, hpair⟩, hmg, hch⟩ := h
    exact ⟨hpair, wfL_attrsSorted _ ch hch⟩
  | _, .text s, _ => trivial
  | _, .comment s, _ => trivial
  | _, .doctype s, _ => trivial
  | _, .cdata s, _ => trivial

theorem wfL_attrsSorted : ∀ (b : Bool) (ns : List Node), wfL b ns → attrsSortedL ns
  | _, [], _ => trivial
  | b, n :: ns, h => ⟨wfN_attrsSorted b n h.1, wfL_attrsSorted b ns h.2⟩

end

/-! ## Claim C10 -/

/-- Claim C10: for every document that parses, every element node keeps
its attribute mapping strictly sorted by attribute name, so
serialization emits attributes alphabetically rather than in
source-markup order; in particular the repository's duplicate-attribute
example (source order b, a, b, a, a, a) serializes with `a` before `b`
as `<b a="4" b="10"></b>`. -/
theorem c10_attributes_sorted :
    (∀ (s : String) (d : Document), parse s = .ok d →
      ∀ n ∈ d.contents, attrsSortedN n) ∧
    (parse "<b b=\"20\" a=\"1\" b=\"10\" a=\"2\" a=\"3\" a=\"4\"></b>").map
      Document.decode = .ok "<b a=\"4\" b=\"10\"></b>" := by
  constructor
  · intro s d h n hn
    exact wfN_attrsSorted false n (parse_wf h n hn)
  · rfl

/-- Witness for C10: concrete application to `<b b="1" a="2"></b>`,
whose parsed element stores the attributes in sorted order. -/
theorem c10_witness :
    attrsSortedN (Node.element "b" [("a", some "2"), ("b", some "1")] false []) :=
  c10_attributes_sorted.1 "<b b=\"1\" a=\"2\"></b>"
    ⟨[Node.element "b" [("a", some "2"), ("b", some "1")] false []], none⟩ rfl
    (Node.element "b" [("a", some "2"), ("b", some "1")] false []) (by simp)

/-! ## Tokenizing serialized start tags -/

theorem renderAttr_valPart (e : Option String) (a : String × Option String) :
    renderAttr e a = ' ' :: (a.1.toList ++ valPart e a.2) := rfl

theorem mkName_of_wf {k : String} (hk : attrNameWf k) : mkName k.toList = k := by
  unfold mkName
  have hmap : k.toList.map lowerChar = k.toList := by
    have h1 : k.toList.map lowerChar = k.toList.map id :=
      List.map_congr_left (fun x hx => lowerChar_id (hk.2 x hx))
    rw [h1, List.map_id]
  rw [hmap, mk_toList]

theorem name_split {k : String} (hk : attrNameWf k) {y : Char} {ys : List Char}
    (hy : isNameChar y = false) :
    (k.toList ++ y :: ys).takeWhile isNameChar = k.toList ∧
    (k.toList ++ y :: ys).dropWhile isNameChar = y :: ys :=
  ⟨takeWhile_append_stop (fun x hx => isLowerNameChar_isNameChar (hk.2 x hx)) hy,
   dropWhile_append_stop (fun x hx => isLowerNameChar_isNameChar (hk.2 x hx)) hy⟩

theorem dropWhile_isWs_attrName {k : String} (hk : attrNameWf k) (w : List Char) :
    (k.toList ++ w).dropWhile isWs = k.toList ++ w := by
  obtain ⟨hne, hall⟩ := hk
  cases hkl : k.toList with
  | nil => exact absurd hkl hne
  | cons b brest =>
    rw [List.cons_append, List.dropWhile_cons,
      if_neg (by rw [(lnc_facts (hall b (by rw [hkl]; simp))).1]; simp)]

theorem lexAttrsF_tail {sc : Bool} {tail r : List Char} {f : Nat}
    (ht : (sc = false ∧ tail = '>' :: r) ∨ (sc = true ∧ tail = '/' :: '>' :: r))
    (hf : tail.length < f) : lexAttrsF f tail = some ([], sc, r) := by
  rcases ht with ⟨rfl, rfl⟩ | ⟨rfl, rfl⟩
  · cases f with
    | zero => exact absurd hf (by omega)
    | succ f2 => simp [lexAttrsF]
  · cases f with
    | zero => exact absurd hf (by omega)
    | succ f2 => simp [lexAttrsF]

theorem lexAttrsF_name_step (f : Nat) (c : Char) (cs : List Char)
    (h1 : ¬ c = '>') (h2 : ¬ c = '/') (h3 : isWs c = false) (h4 : isNameChar c = true) :
    lexAttrsF (f + 1) (c :: cs) =
      (let nm := mkName ((c :: cs).takeWhile isNameChar)
       let r1 := (c :: cs).dropWhile isNameChar
       let r2 := r1.dropWhile isWs
       match r2 with
       | '=' :: r3 =>
         let r4 := r3.dropWhile isWs
         match r4 with
         | [] => none
         | q :: r5 =>
           if q = dq || q = sq then
             match lexQuoted q r5 with
             | some (v, r6) =>
               (lexAttrsF f r6).map (fun p => ((nm, some (String.mk v)) :: p.1, p.2.1, p.2.2))
             | none => none
           else
             let v := r4.takeWhile isUnquotedValChar
             let r6 := r4.dropWhile isUnquotedValChar
             (lexAttrsF f r6).map (fun p => ((nm, some (String.mk v)) :: p.1, p.2.1, p.2.2))
       | _ =>
         (lexAttrsF f r2).map (fun p => ((nm, none) :: p.1, p.2.1, p.2.2))) := by
  simp only [lexAttrsF]
  rw [if_neg h1, if_neg h2, if_neg (by rw [h3]; simp), if_pos h4]

theorem lexAttrsF_step_valued (f : Nat) {k : String} (hk : attrNameWf k) (vv : String)
    (z : List Char) :
    lexAttrsF (f + 1) (k.toList ++ ('=' :: (dq :: (escAttr vv.toList ++ (dq :: z)))))
      = (lexAttrsF f z).map (fun p => ((k, some vv) :: p.1, p.2.1, p.2.2)) := by
  obtain ⟨k0, krest, hkl⟩ : ∃ k0 krest, k.toList = k0 :: krest := by
    rcases hkl : k.toList with _ | ⟨k0, krest⟩
    · exact absurd hkl hk.1
    · exact ⟨k0, krest, rfl⟩
  have hk0 : isLowerNameChar k0 = true := hk.2 k0 (by rw [hkl]; simp)
  have hfx := lnc_facts hk0
  have hfold : ∀ y2 : List Char, k0 :: (krest ++ y2) = k.toList ++ y2 := fun y2 => by
    rw [hkl]
    rfl
  rw [hkl, List.cons_append,
    lexAttrsF_name_step f k0 _ hfx.2.2.1 hfx.2.2.2.1 hfx.1 (isLowerNameChar_isNameChar hk0)]
  simp only []
  rw [hfold, (name_split hk (by decide)).1, (name_split hk (by decide)).2, mkName_of_wf hk,
    List.dropWhile_cons, if_neg (by decide)]
  split
  · rename_i r3 heq
    injection heq with h1 h2
    subst h2
    rw [List.dropWhile_cons, if_neg (by decide)]
    split
    · rename_i heq2
      exact absurd heq2 (by simp)
    · rename_i q r5 heq2
      injection heq2 with h3 h4
      subst h3
      subst h4
      rw [if_pos (by decide), lexQuoted_escAttr]
      split
      · rename_i v2 r6 heq3
        injection heq3 with h5
        injection h5 with h6 h7
        subst h6
        subst h7
        rw [mk_toList]
      · rename_i heq3
        exact absurd heq3 (by simp)
  · rename_i hne
    exact absurd rfl (hne _)

theorem lexAttrsF_step_valued_sq (f : Nat) {k : String} (hk : attrNameWf k) (vv : String)
    (hv : ¬ sq ∈ vv.toList) (z : List Char) :
    lexAttrsF (f + 1) (k.toList ++ ('=' :: (sq :: (escAmp vv.toList ++ (sq :: z)))))
      = (lexAttrsF f z).map (fun p => ((k, some vv) :: p.1, p.2.1, p.2.2)) := by
  obtain ⟨k0, krest, hkl⟩ : ∃ k0 krest, k.toList = k0 :: krest := by
    rcases hkl : k.toList with _ | ⟨k0, krest⟩
    · exact absurd hkl hk.1
    · exact ⟨k0, krest, rfl⟩
  have hk0 : isLowerNameChar k0 = true := hk.2 k0 (by rw [hkl] ; simp)
  have hfx := lnc_facts hk0
  have hfold : ∀ y2 : List Char, k0 :: (krest ++ y2) = k.toList ++ y2 := fun y2 => by
    rw [hkl]
    rfl
  rw [hkl, List.cons_append,
    lexAttrsF_name_step f k0 _ hfx.2.2.1 hfx.2.2.2.1 hfx.1 (isLowerNameChar_isNameChar hk0)]
  simp only []
  rw [hfold, (name_split hk (by decide)).1, (name_split hk (by decide)).2, mkName_of_wf hk,
    List.dropWhile_cons, if_neg (by decide)]
  split
  · rename_i r3 heq
    injection heq with h1 h2
    subst h2
    rw [List.dropWhile_cons, if_neg (by decide)]
    split
    · rename_i heq2
      exact absurd heq2 (by simp)
    · rename_i q r5 heq2
      injection heq2 with h3 h4
      subst h3
      subst h4
      rw [if_pos (by decide), lexQuoted_escAmp _ _ hv]
      split
      · rename_i v2 r6 heq3
        injection heq3 with h5
        injection h5 with h6 h7
        subst h6
        subst h7
        rw [mk_toList]
      · rename_i heq3
        exact absurd heq3 (by simp)
  · rename_i hne
    exact absurd rfl (hne _)

theorem lexAttrsF_step_novalue (f : Nat) {k : String} (hk : attrNameWf k) {y : Char}
    {ys : List Char} (hy : isNameChar y = false) (hyws : isWs y = false) (hyeq : ¬ y = '=') :
    lexAttrsF (f + 1) (k.toList ++ y :: ys)
      = (lexAttrsF f (y :: ys)).map (fun p => ((k, none) :: p.1, p.2.1, p.2.2)) := by
  obtain ⟨k0, krest, hkl⟩ : ∃ k0 krest, k.toList = k0 :: krest := by
    rcases hkl : k.toList with _ | ⟨k0, krest⟩
    · exact absurd hkl hk.1
    · exact ⟨k0, krest, rfl⟩
  have hk0 : isLowerNameChar k0 = true := hk.2 k0 (by rw [hkl]; simp)
  have hfx := lnc_facts hk0
  have hfold : ∀ y2 : List Char, k0 :: (krest ++ y2) = k.toList ++ y2 := fun y2 => by
    rw [hkl]
    rfl
  rw [hkl, List.cons_append,
    lexAttrsF_name_step f k0 _ hfx.2.2.1 hfx.2.2.2.1 hfx.1 (isLowerNameChar_isNameChar hk0)]
  simp only []
  rw [hfold, (name_split hk hy).1, (name_split hk hy).2, mkName_of_wf hk,
    List.dropWhile_cons, if_neg (by rw [hyws]; simp)]
  split
  · rename_i r3 heq
    injection heq with h1 h2
    exact absurd h1 hyeq
  · rfl

theorem lexAttrsF_step_novalue_ws (f : Nat) {k a2 : String} (hk : attrNameWf k)
    (ha : attrNameWf a2) (w : List Char) :
    lexAttrsF (f + 1) (k.toList ++ ' ' :: (a2.toList ++ w))
      = (lexAttrsF f (a2.toList ++ w)).map (fun p => ((k, none) :: p.1, p.2.1, p.2.2)) := by
  obtain ⟨k0, krest, hkl⟩ : ∃ k0 krest, k.toList = k0 :: krest := by
    rcases hkl : k.toList with _ | ⟨k0, krest⟩
    · exact absurd hkl hk.1
    · exact ⟨k0, krest, rfl⟩
  have hk0 : isLowerNameChar k0 = true := hk.2 k0 (by rw [hkl]; simp)
  have hfx := lnc_facts hk0
  have hfold : ∀ y2 : List Char, k0 :: (krest ++ y2) = k.toList ++ y2 := fun y2 => by
    rw [hkl]
    rfl
  rw [hkl, List.cons_append,
    lexAttrsF_name_step f k0 _ hfx.2.2.1 hfx.2.2.2.1 hfx.1 (isLowerNameChar_isNameChar hk0)]
  simp only []
  rw [hfold, (name_split hk (by decide)).1, (name_split hk (by decide)).2, mkName_of_wf hk,
    List.dropWhile_cons, if_pos (by decide), dropWhile_isWs_attrName ha w]
  split
  · rename_i r3 heq
    obtain ⟨hne2, hall2⟩ := ha
    cases hal : a2.toList with
    | nil => exact absurd hal hne2
    | cons b brest =>
      rw [hal, List.cons_append] at heq
      injection heq with h1 h2
      exact absurd h1 (lnc_facts (hall2 b (by rw [hal]; simp))).2.2.2.2.1
  · rfl

mutual

theorem lexAttrsF_rest : ∀ (l2 : List (String × Option String)) (sc : Bool)
    (tail r : List Char) (f : Nat), (∀ a ∈ l2, attrNameWf a.1) →
    ((sc = false ∧ tail = '>' :: r) ∨ (sc = true ∧ tail = '/' :: '>' :: r)) →
    (renderAttrList none l2 ++ tail).length < f →
    lexAttrsF f (renderAttrList none l2 ++ tail) = some (l2, sc, r)
  | [], sc, tail, r, f, _, ht, hf => by
    rw [show renderAttrList none ([] : List (String × Option String)) ++ tail = tail from rfl]
      at hf ⊢
    exact lexAttrsF_tail ht hf
  | a :: l2, sc, tail, r, f, hl2, ht, hf => by
    have he : renderAttrList none (a :: l2) ++ tail
        = ' ' :: (a.1.toList ++ (valPart none a.2 ++ (renderAttrList none l2 ++ tail))) := by
      show (renderAttr none a ++ renderAttrList none l2) ++ tail = _
      rw [renderAttr_valPart]
      simp [List.append_assoc]
    rw [he] at hf ⊢
    cases f with
    | zero => exact absurd hf (by omega)
    | succ f2 =>
      simp only [lexAttrsF]
      rw [if_neg (by decide), if_neg (by decide), if_pos (by decide)]
      exact lexAttrsF_fromName l2 a.1 a.2 sc tail r f2 (hl2 a (by simp))
        (fun x hx => hl2 x (by simp [hx])) ht
        (by simp only [List.length_cons] at hf; omega)
termination_by l2 sc tail r f hl2 ht hf => (l2.length, 0)

theorem lexAttrsF_fromName : ∀ (l2 : List (String × Option String)) (k : String)
    (v : Option String) (sc : Bool) (tail r : List Char) (f : Nat), attrNameWf k →
    (∀ a ∈ l2, attrNameWf a.1) →
    ((sc = false ∧ tail = '>' :: r) ∨ (sc = true ∧ tail = '/' :: '>' :: r)) →
    (k.toList ++ (valPart none v ++ (renderAttrList none l2 ++ tail))).length < f →
    lexAttrsF f (k.toList ++ (valPart none v ++ (renderAttrList none l2 ++ tail)))
      = some ((k, v) :: l2, sc, r)
  | l2, k, some vv, sc, tail, r, f, hk, hl2, ht, hf => by
    by_cases hqc : dq ∈ rawAttrVal none vv ∧ ¬ sq ∈ rawAttrVal none vv
    · have hq : quoteAttrVal none vv = sq :: (escAmp vv.toList ++ [sq]) := by
        unfold quoteAttrVal
        rw [if_pos hqc]
        rfl
      have he : k.toList ++ (valPart none (some vv) ++ (renderAttrList none l2 ++ tail))
          = k.toList ++ ('=' :: (sq :: (escAmp vv.toList
            ++ (sq :: (renderAttrList none l2 ++ tail))))) := by
        show k.toList ++ (('=' :: quoteAttrVal none vv)
          ++ (renderAttrList none l2 ++ tail)) = _
        rw [hq]
        simp [List.append_assoc]
      rw [he] at hf ⊢
      cases f with
      | zero => exact absurd hf (by omega)
      | succ f2 =>
        rw [lexAttrsF_step_valued_sq f2 hk vv hqc.2 _,
          lexAttrsF_rest l2 sc tail r f2 hl2 ht (by
            simp only [List.length_append, List.length_cons] at hf ⊢
            omega)]
        rfl
    · have hq : quoteAttrVal none vv = dq :: (escAttr vv.toList ++ [dq]) := by
        unfold quoteAttrVal
        rw [if_neg hqc]
        rfl
      have he : k.toList ++ (valPart none (some vv) ++ (renderAttrList none l2 ++ tail))
          = k.toList ++ ('=' :: (dq :: (escAttr vv.toList
            ++ (dq :: (renderAttrList none l2 ++ tail))))) := by
        show k.toList ++ (('=' :: quoteAttrVal none vv)
          ++ (renderAttrList none l2 ++ tail)) = _
        rw [hq]
        simp [List.append_assoc]
      rw [he] at hf ⊢
      cases f with
      | zero => exact absurd hf (by omega)
      | succ f2 =>
        rw [lexAttrsF_step_valued f2 hk vv _,
          lexAttrsF_rest l2 sc tail r f2 hl2 ht (by
            simp only [List.length_append, List.length_cons] at hf ⊢
            omega)]
        rfl
  | [], k, none, sc, tail, r, f, hk, hl2, ht, hf => by
    have hkpos : 0 < k.toList.length := List.length_pos.2 hk.1
    have he : k.toList ++ (valPart none none ++ (renderAttrList none [] ++ tail))
        = k.toList ++ tail := rfl
    rw [he] at hf ⊢
    rcases ht with ⟨hsc, htl⟩ | ⟨hsc, htl⟩
    · subst hsc
      subst htl
      cases f with
      | zero => exact absurd hf (by omega)
      | succ f2 =>
        rw [lexAttrsF_step_novalue f2 hk (by decide) (by decide) (by decide),
          lexAttrsF_tail (Or.inl ⟨rfl, rfl⟩) (by
            simp only [List.length_append, List.length_cons] at hf ⊢
            omega)]
        rfl
    · subst hsc
      subst htl
      cases f with
      | zero => exact absurd hf (by omega)
      | succ f2 =>
        rw [lexAttrsF_step_novalue f2 hk (by decide) (by decide) (by decide),
          lexAttrsF_tail (Or.inr ⟨rfl, rfl⟩) (by
            simp only [List.length_append, List.length_cons] at hf ⊢
            omega)]
        rfl
  | a :: l2, k, none, sc, tail, r, f, hk, hl2, ht, hf => by
    have hkpos : 0 < k.toList.length := List.length_pos.2 hk.1
    have he : k.toList ++ (valPart none none ++ (renderAttrList none (a :: l2) ++ tail))
        = k.toList ++ ' ' :: (a.1.toList
          ++ (valPart none a.2 ++ (renderAttrList none l2 ++ tail))) := by
      show k.toList ++ ([] ++ ((renderAttr none a ++ renderAttrList none l2) ++ tail)) = _
      rw [renderAttr_valPart]
      simp [List.append_assoc]
    rw [he] at hf ⊢
    cases f with
    | zero => exact absurd hf (by omega)
    | succ f2 =>
      rw [lexAttrsF_step_novalue_ws f2 hk (hl2 a (by simp)) _,
        lexAttrsF_fromName l2 a.1 a.2 sc tail r f2 (hl2 a (by simp))
          (fun x hx => hl2 x (by simp [hx])) ht (by
            simp only [List.length_append, List.length_cons] at hf ⊢
            omega)]
      rfl
termination_by l2 k v sc tail r f hk hl2 ht hf => (l2.length, 1)

end
/-! ## Tokenizing serialized text and tags -/

theorem lexTextF_escText : ∀ (s r : List Char) (f : Nat),
    (escText s ++ r).length < f → (r = [] ∨ ∃ t, r = '<' :: t) →
    lexTextF f (escText s ++ r) = (s, r)
  | [], r, f, hf, hr => by
    rcases hr with rfl | ⟨t, rfl⟩
    · cases f with
      | zero => exact absurd hf (by omega)
      | succ f2 => rfl
    · cases f with
      | zero => exact absurd hf (by omega)
      | succ f2 =>
        show lexTextF (f2 + 1) ('<' :: t) = ([], '<' :: t)
        simp [lexTextF]
  | c :: s, r, f, hf, hr => by
    cases f with
    | zero => exact absurd hf (by omega)
    | succ f2 =>
      by_cases hamp : c = '&'
      · subst hamp
        have he : escText ('&' :: s) ++ r
            = '&' :: 'a' :: 'm' :: 'p' :: ';' :: (escText s ++ r) := by
          simp [escText, escListWith, escTextChar]
        rw [he] at hf ⊢
        show (if ('&' : Char) = '<' then (([] : List Char), '&' :: 'a' :: 'm' :: 'p' :: ';'
            :: (escText s ++ r))
          else if ('&' : Char) = '&' then
            match entityAt ('a' :: 'm' :: 'p' :: ';' :: (escText s ++ r)) with
            | some p => cons1 p.1 (lexTextF f2 p.2)
            | none => cons1 '&' (lexTextF f2 ('a' :: 'm' :: 'p' :: ';' :: (escText s ++ r)))
          else cons1 '&' (lexTextF f2 ('a' :: 'm' :: 'p' :: ';' :: (escText s ++ r))))
          = ('&' :: s, r)
        rw [if_neg (by decide), if_pos rfl, entityAt_amp]
        show cons1 '&' (lexTextF f2 (escText s ++ r)) = ('&' :: s, r)
        rw [lexTextF_escText s r f2
          (by simp only [List.length_cons, List.length_append] at hf ⊢; omega) hr]
        rfl
      · by_cases hlt : c = '<'
        · subst hlt
          have he : escText ('<' :: s) ++ r
              = '&' :: 'l' :: 't' :: ';' :: (escText s ++ r) := by
            simp [escText, escListWith, escTextChar]
          rw [he] at hf ⊢
          show (if ('&' : Char) = '<' then (([] : List Char), '&' :: 'l' :: 't' :: ';'
              :: (escText s ++ r))
            else if ('&' : Char) = '&' then
              match entityAt ('l' :: 't' :: ';' :: (escText s ++ r)) with
              | some p => cons1 p.1 (lexTextF f2 p.2)
              | none => cons1 '&' (lexTextF f2 ('l' :: 't' :: ';' :: (escText s ++ r)))
            else cons1 '&' (lexTextF f2 ('l' :: 't' :: ';' :: (escText s ++ r))))
            = ('<' :: s, r)
          rw [if_neg (by decide), if_pos rfl, entityAt_lt]
          show cons1 '<' (lexTextF f2 (escText s ++ r)) = ('<' :: s, r)
          rw [lexTextF_escText s r f2
            (by simp only [List.length_cons, List.length_append] at hf ⊢; omega) hr]
          rfl
        · by_cases hgt : c = '>'
          · subst hgt
            have he : escText ('>' :: s) ++ r
                = '&' :: 'g' :: 't' :: ';' :: (escText s ++ r) := by
              simp [escText, escListWith, escTextChar]
            rw [he] at hf ⊢
            show (if ('&' : Char) = '<' then (([] : List Char), '&' :: 'g' :: 't' :: ';'
                :: (escText s ++ r))
              else if ('&' : Char) = '&' then
                match entityAt ('g' :: 't' :: ';' :: (escText s ++ r)) with
                | some p => cons1 p.1 (lexTextF f2 p.2)
                | none => cons1 '&' (lexTextF f2 ('g' :: 't' :: ';' :: (escText s ++ r)))
              else cons1 '&' (lexTextF f2 ('g' :: 't' :: ';' :: (escText s ++ r))))
              = ('>' :: s, r)
            rw [if_neg (by decide), if_pos rfl, entityAt_gt]
            show cons1 '>' (lexTextF f2 (escText s ++ r)) = ('>' :: s, r)
            rw [lexTextF_escText s r f2
              (by simp only [List.length_cons, List.length_append] at hf ⊢; omega) hr]
            rfl
          · have he : escText (c :: s) ++ r = c :: (escText s ++ r) := by
              simp [escText, escListWith, escTextChar, hamp, hlt, hgt]
            rw [he] at hf ⊢
            show (if c = '<' then (([] : List Char), c :: (escText s ++ r))
              else if c = '&' then
                match entityAt (escText s ++ r) with
                | some p => cons1 p.1 (lexTextF f2 p.2)
                | none => cons1 '&' (lexTextF f2 (escText s ++ r))
              else cons1 c (lexTextF f2 (escText s ++ r))) = (c :: s, r)
            rw [if_neg hlt, if_neg hamp]
            rw [lexTextF_escText s r f2
              (by simp only [List.length_cons, List.length_append] at hf ⊢; omega) hr]
            rfl

theorem lexText_escText (s r : List Char) (hr : r = [] ∨ ∃ t, r = '<' :: t) :
    lexText (escText s ++ r) = (s, r) :=
  lexTextF_escText s r _ (by omega) hr

theorem tokStep_lt_cons (d : Char) (cs2 : List Char) :
    tokStep ('<' :: d :: cs2) =
      (if d = '/' then
        match cs2 with
        | [] => StepRes.fin []
        | e :: cs3 =>
          if isAlphaB e then
            let nm := mkName ((e :: cs3).takeWhile isNameChar)
            let r1 := (e :: cs3).dropWhile isNameChar
            match skipToGt r1 with
            | some rest => StepRes.step (Event.endTag nm) rest
            | none => StepRes.fin []
          else
            match skipToGt (e :: cs3) with
            | some rest => StepRes.skip rest
            | none => StepRes.fin []
      else if d = '!' then
        if dashDash.isPrefixOf cs2 then
          let p := takeUntilSub dashGt (cs2.drop 2)
          StepRes.step (Event.comm (String.mk p.1)) p.2
        else if doctypeWord.isPrefixOf cs2 then
          let r1 := (cs2.drop 7).dropWhile isWs
          let content := r1.takeWhile (fun c => c != '>')
          if namespacedDoctype content then StepRes.fail
          else
            let r2 := (r1.dropWhile (fun c => c != '>')).drop 1
            StepRes.step (Event.doctypeEv (String.mk content)) r2
        else if cdataOpen.isPrefixOf cs2 then
          let p := takeUntilSub cdataClose (cs2.drop 7)
          StepRes.step (Event.cdataEv (String.mk p.1)) p.2
        else StepRes.fail
      else if isAlphaB d then
        let nm := mkName ((d :: cs2).takeWhile isNameChar)
        let r1 := (d :: cs2).dropWhile isNameChar
        match lexAttrs r1 with
        | some (attrs, sc, rest) => StepRes.step (Event.startTag nm attrs sc) rest
        | none => StepRes.fin []
      else StepRes.step (Event.chars (String.mk ['<'])) (d :: cs2)) := by
  simp only [tokStep]
  rw [if_pos trivial]

theorem nameWf_attrNameWf {nm : String} (h : nameWf nm) : attrNameWf nm := by
  unfold nameWf at h
  constructor
  · cases hnl : nm.toList with
    | nil =>
      rw [hnl] at h
      exact h.elim
    | cons c cs => simp [hnl]
  · intro x hx
    cases hnl : nm.toList with
    | nil =>
      rw [hnl] at h
      exact h.elim
    | cons c cs =>
      rw [hnl] at h
      rw [hnl] at hx
      rcases List.mem_cons.1 hx with hx | hx
      · rw [hx]
        exact isLowerAlpha_isLowerNameChar h.1
      · exact h.2 x hx

theorem nameWf_head {nm : String} {c : Char} {cs : List Char} (h : nameWf nm)
    (he : nm.toList = c :: cs) : isLowerAlpha c = true := by
  unfold nameWf at h
  rw [he] at h
  exact h.1

theorem isLowerAlpha_facts {c : Char} (h : isLowerAlpha c = true) :
    ¬ c = '/' ∧ ¬ c = '!' := by
  simp only [isLowerAlpha, Bool.and_eq_true, decide_eq_true_eq] at h
  constructor
  · apply char_toNat_ne
    have h1 : ('/').toNat = 47 := by decide
    omega
  · apply char_toNat_ne
    have h1 : ('!').toNat = 33 := by decide
    omega

theorem tokStep_end_unfold (e : Char) (x : List Char) :
    tokStep ('<' :: '/' :: e :: x) =
      (if isAlphaB e then
        match skipToGt ((e :: x).dropWhile isNameChar) with
        | some rest => StepRes.step (Event.endTag (mkName ((e :: x).takeWhile isNameChar))) rest
        | none => StepRes.fin []
      else
        match skipToGt (e :: x) with
        | some rest => StepRes.skip rest
        | none => StepRes.fin []) := by
  rw [tokStep_lt_cons, if_pos rfl]

theorem tokStep_endTag {nm : String} (r : List Char) (hn : nameWf nm) :
    tokStep ('<' :: '/' :: (nm.toList ++ '>' :: r)) = .step (Event.endTag nm) r := by
  have han := nameWf_attrNameWf hn
  obtain ⟨c, cs, hnl⟩ : ∃ c cs, nm.toList = c :: cs := by
    rcases hnl : nm.toList with _ | ⟨c, cs⟩
    · exact absurd hnl han.1
    · exact ⟨c, cs, rfl⟩
  have hfold : ∀ y2 : List Char, c :: (cs ++ y2) = nm.toList ++ y2 := fun y2 => by
    rw [hnl]
    rfl
  rw [hnl, List.cons_append, tokStep_end_unfold,
    if_pos (isLowerAlpha_isAlphaB (nameWf_head hn hnl)), hfold,
    (name_split han (by decide)).1, (name_split han (by decide)).2, mkName_of_wf han,
    show skipToGt ('>' :: r) = some r from by simp [skipToGt]]

theorem tokStep_startTag {nm : String} {attrs : List (String × Option String)} {sc : Bool}
    {tail r : List Char} (hn : nameWf nm) (ha : ∀ a ∈ attrs, attrNameWf a.1)
    (ht : (sc = false ∧ tail = '>' :: r) ∨ (sc = true ∧ tail = '/' :: '>' :: r)) :
    tokStep ('<' :: (nm.toList ++ (renderAttrList none attrs ++ tail)))
      = .step (Event.startTag nm attrs sc) r := by
  have han := nameWf_attrNameWf hn
  obtain ⟨c, cs, hnl⟩ : ∃ c cs, nm.toList = c :: cs := by
    rcases hnl : nm.toList with _ | ⟨c, cs⟩
    · exact absurd hnl han.1
    · exact ⟨c, cs, rfl⟩
  have hlc := nameWf_head hn hnl
  have hfacts := isLowerAlpha_facts hlc
  have hfold : ∀ y2 : List Char, c :: (cs ++ y2) = nm.toList ++ y2 := fun y2 => by
    rw [hnl]
    rfl
  rw [hnl, List.cons_append, tokStep_lt_cons, if_neg hfacts.1, if_neg hfacts.2,
    if_pos (isLowerAlpha_isAlphaB hlc), hfold]
  cases attrs with
  | nil =>
    rcases ht with ⟨hsc, htl⟩ | ⟨hsc, htl⟩
    · subst hsc
      subst htl
      rw [show renderAttrList none ([] : List (String × Option String)) ++ '>' :: r
          = '>' :: r from rfl,
        (name_split han (by decide)).1, (name_split han (by decide)).2, mkName_of_wf han]
      simp only []
      rw [show lexAttrs ('>' :: r) = some ([], false, r) from
        lexAttrsF_tail (Or.inl ⟨rfl, rfl⟩) (by simp [lexAttrs])]
    · subst hsc
      subst htl
      rw [show renderAttrList none ([] : List (String × Option String)) ++ '/' :: '>' :: r
          = '/' :: '>' :: r from rfl,
        (name_split han (by decide)).1, (name_split han (by decide)).2, mkName_of_wf han]
      simp only []
      rw [show lexAttrs ('/' :: '>' :: r) = some ([], true, r) from
        lexAttrsF_tail (Or.inr ⟨rfl, rfl⟩) (by simp [lexAttrs])]
  | cons a attrs2 =>
    have he2 : renderAttrList none (a :: attrs2) ++ tail
        = ' ' :: (a.1.toList ++ (valPart none a.2 ++ (renderAttrList none attrs2 ++ tail))) := by
      show (renderAttr none a ++ renderAttrList none attrs2) ++ tail = _
      rw [renderAttr_valPart]
      simp [List.append_assoc]
    rw [he2, (name_split han (by decide)).1, (name_split han (by decide)).2, mkName_of_wf han]
    simp only []
    rw [← he2,
      show lexAttrs (renderAttrList none (a :: attrs2) ++ tail) = some (a :: attrs2, sc, r) from
        lexAttrsF_rest (a :: attrs2) sc tail r _ ha ht (by simp [lexAttrs])]

theorem tokStep_comment (s r : List Char) (hs : occursSub dashGt s = false) :
    tokStep ('<' :: '!' :: '-' :: '-' :: (s ++ (dashGt ++ r)))
      = .step (Event.comm (String.mk s)) r := by
  have hpre : dashDash.isPrefixOf ('-' :: '-' :: (s ++ (dashGt ++ r))) = true :=
    List.isPrefixOf_iff_prefix.2 ⟨s ++ (dashGt ++ r), rfl⟩
  rw [tokStep_lt_cons, if_neg (by decide), if_pos rfl, if_pos hpre]
  show StepRes.step (Event.comm (String.mk (takeUntilSub dashGt (s ++ (dashGt ++ r))).1))
      (takeUntilSub dashGt (s ++ (dashGt ++ r))).2 = StepRes.step (Event.comm (String.mk s)) r
  rw [takeUntilSub_exact (by decide) (by decide) s r hs]

theorem tokStep_doctype (s r : List Char) (h1 : ∀ c ∈ s, ¬ c = '>')
    (h2 : ∀ c t, s = c :: t → isWs c = false) (h3 : namespacedDoctype s = false) :
    tokStep ('<' :: '!' :: 'D' :: 'O' :: 'C' :: 'T' :: 'Y' :: 'P' :: 'E' :: ' '
      :: (s ++ '>' :: r)) = .step (Event.doctypeEv (String.mk s)) r := by
  have hpre : doctypeWord.isPrefixOf ('D' :: 'O' :: 'C' :: 'T' :: 'Y' :: 'P' :: 'E' :: ' '
      :: (s ++ '>' :: r)) = true :=
    List.isPrefixOf_iff_prefix.2 ⟨' ' :: (s ++ '>' :: r), rfl⟩
  rw [tokStep_lt_cons, if_neg (by decide), if_pos rfl, if_neg (fun h => nomatch h),
    if_pos hpre]
  have hdws : (s ++ '>' :: r).dropWhile isWs = s ++ '>' :: r := by
    cases s with
    | nil => rw [List.nil_append, List.dropWhile_cons, if_neg (by decide)]
    | cons c t =>
      rw [List.cons_append, List.dropWhile_cons, if_neg (by rw [h2 c t rfl]; simp)]
  have htw : (s ++ '>' :: r).takeWhile (fun c => c != '>') = s :=
    takeWhile_append_stop (fun x hx => by simp only [bne_iff_ne, ne_eq]; exact h1 x hx)
      (by decide)
  have hdw2 : (s ++ '>' :: r).dropWhile (fun c => c != '>') = '>' :: r :=
    dropWhile_append_stop (fun x hx => by simp only [bne_iff_ne, ne_eq]; exact h1 x hx)
      (by decide)
  show (if namespacedDoctype (((s ++ '>' :: r).dropWhile isWs).takeWhile
        (fun c => c != '>')) = true then StepRes.fail
      else StepRes.step (Event.doctypeEv (String.mk (((s ++ '>' :: r).dropWhile
          isWs).takeWhile (fun c => c != '>'))))
        ((((s ++ '>' :: r).dropWhile isWs).dropWhile (fun c => c != '>')).drop 1))
    = StepRes.step (Event.doctypeEv (String.mk s)) r
  rw [hdws, htw, hdw2, h3]
  rfl

theorem tokStep_cdata (s r : List Char) (hs : occursSub cdataClose s = false) :
    tokStep ('<' :: '!' :: '[' :: 'C' :: 'D' :: 'A' :: 'T' :: 'A' :: '['
      :: (s ++ (cdataClose ++ r))) = .step (Event.cdataEv (String.mk s)) r := by
  have hpre : cdataOpen.isPrefixOf ('[' :: 'C' :: 'D' :: 'A' :: 'T' :: 'A' :: '['
      :: (s ++ (cdataClose ++ r))) = true :=
    List.isPrefixOf_iff_prefix.2 ⟨s ++ (cdataClose ++ r), rfl⟩
  rw [tokStep_lt_cons, if_neg (by decide), if_pos rfl, if_neg (fun h => nomatch h),
    if_neg (fun h => nomatch h), if_pos hpre]
  show StepRes.step (Event.cdataEv (String.mk (takeUntilSub cdataClose
      (s ++ (cdataClose ++ r))).1)) (takeUntilSub cdataClose (s ++ (cdataClose ++ r))).2
    = StepRes.step (Event.cdataEv (String.mk s)) r
  rw [takeUntilSub_exact (by decide) (by decide) s r hs]

theorem escText_cons_head : ∀ (c : Char) (s : List Char),
    ∃ h t, escText (c :: s) = h :: t ∧ ¬ h = '<'
  | c, s => by
    show ∃ h t, escTextChar c ++ escText s = h :: t ∧ ¬ h = '<'
    unfold escTextChar
    split_ifs with h1 h2 h3
    · exact ⟨'&', _, rfl, by decide⟩
    · exact ⟨'&', _, rfl, by decide⟩
    · exact ⟨'&', _, rfl, by decide⟩
    · exact ⟨c, escText s, rfl, h2⟩

theorem tokStep_chars {s r : List Char} (hs : s ≠ []) (hr : r = [] ∨ ∃ t, r = '<' :: t) :
    tokStep (escText s ++ r) = .step (Event.chars (String.mk s)) r := by
  obtain ⟨c, s2, rfl⟩ : ∃ c s2, s = c :: s2 := by
    rcases s with _ | ⟨c, s2⟩
    · exact absurd rfl hs
    · exact ⟨c, s2, rfl⟩
  obtain ⟨h, t, hht, hne⟩ := escText_cons_head c s2
  have hlex : lexText (escText (c :: s2) ++ r) = (c :: s2, r) := lexText_escText _ r hr
  rw [hht, List.cons_append] at hlex ⊢
  simp only [tokStep]
  rw [if_neg hne, hlex]

/-! ## Tokenizing a full serialization -/

theorem except_map_map {α β γ δ : Type} (f : β → γ) (g : α → β) (x : Except δ α) :
    (x.map g).map f = x.map (fun a => f (g a)) := by
  cases x <;> simp [Except.map]

theorem except_map_congr {α β γ : Type} {x : Except γ α} {f g : α → β}
    (h : ∀ a, f a = g a) : x.map f = x.map g := by
  cases x <;> simp [Except.map, h]

theorem noAdjL_destruct : ∀ {n : Node} {ns : List Node}, noAdjL (n :: ns) = true →
    noAdjN n = true ∧ noAdjL ns = true ∧
      (∀ m ms, ns = m :: ms → isTextN n = true → isTextN m = false)
  | n, [], h => ⟨h, rfl, fun m ms hms => by cases hms⟩
  | n, m :: ms, h => by
    have h2 : (!(isTextN n && isTextN m) && noAdjN n && noAdjL (m :: ms)) = true := h
    simp only [Bool.and_eq_true, Bool.not_eq_true'] at h2
    obtain ⟨⟨h3, h4⟩, h5⟩ := h2
    refine ⟨h4, h5, ?_⟩
    intro m2 ms2 hms hn
    injection hms with hm hms2
    subst hm
    rw [hn] at h3
    simpa using h3

theorem renderNode_head : ∀ (n : Node), isTextN n = false → ∃ t, renderNode none n = '<' :: t
  | .element nm attrs sub ch, _ => by
    simp only [renderNode]
    split_ifs with h
    all_goals exact ⟨_, rfl⟩
  | .text s, h => by simp [isTextN] at h
  | .comment s, _ => ⟨_, rfl⟩
  | .doctype s, _ => ⟨_, rfl⟩
  | .cdata s, _ => ⟨_, rfl⟩

mutual

theorem tok_render : ∀ (b : Bool) (n : Node), wfN b n → noAdjN n = true →
    ∀ r : List Char, (isTextN n = true → (r = [] ∨ ∃ t, r = '<' :: t)) →
    tokenize (renderNode none n ++ r) = (tokenize r).map (fun evs => eventsOf n ++ evs)
  | b, .element nm attrs sub ch, hwf, hadj, r, _ => by
    obtain ⟨hnm, hattrs, hmg, hch⟩ := hwf
    have hrn : renderNode none (Node.element nm attrs sub ch) =
        (if ch.isEmpty && voidTags.contains nm then
          '<' :: nm.toList ++ renderAttrList none attrs ++ ['/', '>']
        else
          '<' :: nm.toList ++ renderAttrList none attrs ++ '>' :: renderNodes none ch
            ++ '<' :: '/' :: nm.toList ++ ['>']) := by
      simp only [renderNode, ite_self]
    cases hvc : ch.isEmpty && voidTags.contains nm with
    | true =>
      rw [hrn, if_pos hvc]
      have he1 : ('<' :: nm.toList ++ renderAttrList none attrs ++ ['/', '>']) ++ r
          = '<' :: (nm.toList ++ (renderAttrList none attrs ++ ('/' :: '>' :: r))) := by
        simp [List.append_assoc]
      rw [he1, tokenize_step (tokStep_startTag hnm hattrs.1 (Or.inr ⟨rfl, rfl⟩))]
      have hev : eventsOf (Node.element nm attrs sub ch) = [Event.startTag nm attrs true] := by
        simp only [eventsOf]
        rw [if_pos hvc]
      rw [hev]
      exact except_map_congr (fun a => rfl)
    | false =>
      rw [hrn, if_neg (by rw [hvc]; simp)]
      have he1 : ('<' :: nm.toList ++ renderAttrList none attrs ++ '>' :: renderNodes none ch
            ++ '<' :: '/' :: nm.toList ++ ['>']) ++ r
          = '<' :: (nm.toList ++ (renderAttrList none attrs
            ++ ('>' :: (renderNodes none ch ++ ('<' :: '/' :: (nm.toList ++ '>' :: r)))))) := by
        simp [List.append_assoc]
      rw [he1, tokenize_step (tokStep_startTag hnm hattrs.1 (Or.inl ⟨rfl, rfl⟩)),
        tok_renders (b || preserveTags.contains nm) ch hch hadj
          ('<' :: '/' :: (nm.toList ++ '>' :: r)) (Or.inr ⟨_, rfl⟩),
        tokenize_step (tokStep_endTag r hnm)]
      have hev : eventsOf (Node.element nm attrs sub ch)
          = Event.startTag nm attrs false :: eventsOfList ch ++ [Event.endTag nm] := by
        simp only [eventsOf]
        rw [if_neg (by rw [hvc]; simp)]
      rw [hev, except_map_map, except_map_map]
      exact except_map_congr (fun a => by simp [List.append_assoc])
  | b, .text s, hwf, _, r, hr => by
    have hs : s.toList ≠ [] := hwf.1
    rw [show renderNode none (Node.text s) = escText s.toList from rfl,
      tokenize_step (tokStep_chars hs (hr rfl)), mk_toList]
    exact except_map_congr (fun a => rfl)
  | b, .comment s, hwf, _, r, _ => by
    have he1 : renderNode none (Node.comment s) ++ r
        = '<' :: '!' :: '-' :: '-' :: (s.toList ++ (dashGt ++ r)) := by
      show ("<!--".toList ++ s.toList ++ dashGt) ++ r = _
      rw [List.append_assoc, List.append_assoc]
      rfl
    rw [he1, tokenize_step (tokStep_comment s.toList r hwf), mk_toList]
    exact except_map_congr (fun a => rfl)
  | b, .doctype s, hwf, _, r, _ => by
    have he1 : renderNode none (Node.doctype s) ++ r
        = '<' :: '!' :: 'D' :: 'O' :: 'C' :: 'T' :: 'Y' :: 'P' :: 'E' :: ' '
          :: (s.toList ++ '>' :: r) := by
      show ("<!DOCTYPE ".toList ++ s.toList ++ ['>']) ++ r = _
      rw [List.append_assoc, List.append_assoc]
      rfl
    rw [he1, tokenize_step (tokStep_doctype s.toList r hwf.1 hwf.2.1 hwf.2.2), mk_toList]
    exact except_map_congr (fun a => rfl)
  | b, .cdata s, hwf, _, r, _ => by
    have he1 : renderNode none (Node.cdata s) ++ r
        = '<' :: '!' :: '[' :: 'C' :: 'D' :: 'A' :: 'T' :: 'A' :: '['
          :: (s.toList ++ (cdataClose ++ r)) := by
      show ("<![CDATA[".toList ++ s.toList ++ cdataClose) ++ r = _
      rw [List.append_assoc, List.append_assoc]
      rfl
    rw [he1, tokenize_step (tokStep_cdata s.toList r hwf), mk_toList]
    exact except_map_congr (fun a => rfl)

theorem tok_renders : ∀ (b : Bool) (ns : List Node), wfL b ns → noAdjL ns = true →
    ∀ r : List Char, (r = [] ∨ ∃ t, r = '<' :: t) →
    tokenize (renderNodes none ns ++ r) = (tokenize r).map (fun evs => eventsOfList ns ++ evs)
  | _, [], _, _, r, _ => by
    show tokenize r = (tokenize r).map (fun evs => eventsOfList [] ++ evs)
    cases tokenize r <;> simp [Except.map, eventsOfList]
  | b, n :: ns, hwf, hadj, r, hr => by
    obtain ⟨h1, h2, h3⟩ := noAdjL_destruct hadj
    have hcond : isTextN n = true → (renderNodes none ns ++ r = []
        ∨ ∃ t, renderNodes none ns ++ r = '<' :: t) := by
      intro htx
      cases hns : ns with
      | nil =>
        rw [show renderNodes none [] ++ r = r from rfl]
        exact hr
      | cons m ms =>
        obtain ⟨t, hm⟩ := renderNode_head m (h3 m ms hns htx)
        refine Or.inr ⟨t ++ (renderNodes none ms ++ r), ?_⟩
        rw [show renderNodes none (m :: ms) ++ r
            = renderNode none m ++ (renderNodes none ms ++ r) from by
          show (renderNode none m ++ renderNodes none ms) ++ r = _
          rw [List.append_assoc], hm]
        rfl
    rw [show renderNodes none (n :: ns) ++ r
        = renderNode none n ++ (renderNodes none ns ++ r) from by
        show (renderNode none n ++ renderNodes none ns) ++ r = _
        rw [List.append_assoc],
      tok_render b n hwf.1 h1 (renderNodes none ns ++ r) hcond,
      tok_renders b ns hwf.2 h2 r hr, except_map_map]
    exact except_map_congr (fun a => by
      show eventsOf n ++ (eventsOfList ns ++ a) = eventsOfList (n :: ns) ++ a
      rw [show eventsOfList (n :: ns) = eventsOf n ++ eventsOfList ns from rfl,
        List.append_assoc])

end

/-! ## Assembling the events of a tree -/

theorem pwStack_appendNode (st : AsmState) (n : Node) :
    pwStack (appendNode st n).stack = pwStack st.stack := by
  rcases st with ⟨stk, root⟩
  cases stk <;> rfl

theorem appendNodes_frame : ∀ (ch : List Node) (f : Frame) (fs : List Frame)
    (root : List Node), appendNodes ⟨f :: fs, root⟩ ch
      = ⟨{ f with childrenRev := ch.reverse ++ f.childrenRev } :: fs, root⟩
  | [], f, fs, root => by
    show (⟨f :: fs, root⟩ : AsmState) = _
    simp
  | a :: ch, f, fs, root => by
    show appendNodes ⟨{ f with childrenRev := a :: f.childrenRev } :: fs, root⟩ ch = _
    rw [appendNodes_frame ch _ fs root]
    simp [List.append_assoc]

theorem appendNodes_nilstack : ∀ (ns : List Node) (root : List Node),
    appendNodes ⟨[], root⟩ ns = ⟨[], ns.reverse ++ root⟩
  | [], root => by
    show (⟨[], root⟩ : AsmState) = _
    simp
  | n :: ns, root => by
    show appendNodes ⟨[], n :: root⟩ ns = _
    rw [appendNodes_nilstack ns _]
    simp

mutual

theorem asm_one : ∀ (n : Node) (st : AsmState), wfN (pwStack st.stack) n →
    ∀ evs : List Event, assembleEvents none (eventsOf n ++ evs) st
      = assembleEvents none evs (appendNode st n)
  | .element nm attrs sub ch, st, hwf, evs => by
    obtain ⟨hnm, hattrs, hmg, hch⟩ := hwf
    have hns : normalizeAttrs attrs = attrs := normalizeAttrs_sorted_id hattrs.2
    have hm : mungeAttrs nm (normalizeAttrs attrs) = (attrs, sub) := by
      rw [hns]
      exact hmg
    cases hvc : ch.isEmpty && voidTags.contains nm with
    | true =>
      have hche : ch = [] := by
        have h2 := hvc
        simp only [Bool.and_eq_true] at h2
        have h1 := h2.1
        rwa [List.isEmpty_iff] at h1
      subst hche
      have hev : eventsOf (Node.element nm attrs sub [])
          = [Event.startTag nm attrs true] := by
        simp only [eventsOf]
        rw [if_pos hvc]
      rw [hev]
      show assembleEvents none evs (handleStart none nm attrs true st) = _
      simp only [handleStart]
      rw [if_neg (fun h => nomatch h), if_pos trivial, hm]
    | false =>
      have hev : eventsOf (Node.element nm attrs sub ch)
          = Event.startTag nm attrs false :: eventsOfList ch ++ [Event.endTag nm] := by
        simp only [eventsOf]
        rw [if_neg (by rw [hvc]; simp)]
      rw [hev, show (Event.startTag nm attrs false :: eventsOfList ch
            ++ [Event.endTag nm]) ++ evs
          = Event.startTag nm attrs false :: (eventsOfList ch ++ (Event.endTag nm :: evs))
          from by simp [List.append_assoc]]
      have hps : processEvent none st (Event.startTag nm attrs false)
          = ⟨⟨nm, attrs, sub, []⟩ :: st.stack, st.rootRev⟩ := by
        show handleStart none nm attrs false st = _
        simp only [handleStart]
        rw [if_neg (fun h => nomatch h), if_neg (fun h => nomatch h), hm]
      show assembleEvents none (eventsOfList ch ++ (Event.endTag nm :: evs))
        (processEvent none st (Event.startTag nm attrs false)) = _
      rw [hps, asm_list ch ⟨⟨nm, attrs, sub, []⟩ :: st.stack, st.rootRev⟩ (by
          intro m hm2
          have h2 := (wfL_forall _ ch).1 hch m hm2
          show wfN (pwStack (⟨nm, attrs, sub, []⟩ :: st.stack)) m
          rw [pwStack_cons]
          rw [Bool.or_comm]
          exact h2) (Event.endTag nm :: evs),
        appendNodes_frame ch _ st.stack st.rootRev]
      have hend : processEvent none
          ⟨⟨nm, attrs, sub, ch.reverse ++ []⟩ :: st.stack, st.rootRev⟩ (Event.endTag nm)
          = appendNode st (Node.element nm attrs sub ch) := by
        show handleEnd nm ⟨⟨nm, attrs, sub, ch.reverse ++ []⟩ :: st.stack, st.rootRev⟩ = _
        rcases st with ⟨stk, root⟩
        cases stk with
        | nil => simp [handleEnd, popToAux, closeFrame, appendNode]
        | cons g gs => simp [handleEnd, popToAux, closeFrame, appendNode]
      show assembleEvents none evs (processEvent none
        ⟨⟨nm, attrs, sub, ch.reverse ++ []⟩ :: st.stack, st.rootRev⟩ (Event.endTag nm)) = _
      rw [hend]
  | .text s, st, hwf, evs => by
    show assembleEvents none evs (handleText none s st) = _
    cases hp : preserving st with
    | true =>
      have hs2 : (if preserving st then s else String.mk (collapseWs s.toList)) = s := by
        rw [hp]
        rfl
      simp only [handleText]
      rw [if_neg (fun h => nomatch h), hs2]
    | false =>
      rcases hwf.2 with hpw | hcol
      · have hq : preserving st = true := hpw
        rw [hp] at hq
        exact absurd hq (by simp)
      · have hs2 : (if preserving st then s else String.mk (collapseWs s.toList)) = s := by
          rw [hp, if_neg (fun h => nomatch h), hcol, mk_toList]
        simp only [handleText]
        rw [if_neg (fun h => nomatch h), hs2]
  | .comment s, st, _, evs => by
    show assembleEvents none evs (handleLeaf none Node.comment s st) = _
    simp only [handleLeaf]
    rw [if_neg (fun h => nomatch h)]
  | .doctype s, st, _, evs => by
    show assembleEvents none evs (handleLeaf none Node.doctype s st) = _
    simp only [handleLeaf]
    rw [if_neg (fun h => nomatch h)]
  | .cdata s, st, _, evs => by
    show assembleEvents none evs (handleLeaf none Node.cdata s st) = _
    simp only [handleLeaf]
    rw [if_neg (fun h => nomatch h)]

theorem asm_list : ∀ (ns : List Node) (st : AsmState),
    (∀ n ∈ ns, wfN (pwStack st.stack) n) → ∀ evs : List Event,
    assembleEvents none (eventsOfList ns ++ evs) st
      = assembleEvents none evs (appendNodes st ns)
  | [], _, _, _ => rfl
  | n :: ns, st, hwf, evs => by
    rw [show eventsOfList (n :: ns) ++ evs = eventsOf n ++ (eventsOfList ns ++ evs) from by
        rw [show eventsOfList (n :: ns) = eventsOf n ++ eventsOfList ns from rfl,
          List.append_assoc],
      asm_one n st (hwf n (by simp)) (eventsOfList ns ++ evs),
      asm_list ns (appendNode st n) (by
        intro m hm
        rw [pwStack_appendNode]
        exact hwf m (by simp [hm])) evs]
    rfl

end

/-! ## Claim C1 -/

/-- Re-parsing the serialization of a list of normal-form top-level
nodes with no adjacent text siblings reproduces the nodes exactly. -/
theorem roundtrip_core {ns : List Node} (hwf : ∀ n ∈ ns, wfN false n)
    (hadj : noAdjL ns = true) :
    parseWith none (renderNodes none ns) = .ok ⟨ns, none⟩ := by
  unfold parseWith
  have htok : tokenize (renderNodes none ns) = .ok (eventsOfList ns) := by
    have h1 := tok_renders false ns ((wfL_forall false ns).2 hwf) hadj [] (Or.inl rfl)
    rw [List.append_nil] at h1
    rw [h1]
    show (Except.ok ([] : List Event)).map _ = _
    simp [Except.map]
  rw [htok]
  show Except.ok (⟨parseEvents none (eventsOfList ns), none⟩ : Document) = _
  have hasm : assembleEvents none (eventsOfList ns) emptyState
      = ⟨[], ns.reverse⟩ := by
    have h2 := asm_list ns emptyState (fun n hn => hwf n hn) []
    rw [List.append_nil] at h2
    rw [h2]
    show appendNodes (⟨[], []⟩ : AsmState) ns = _
    rw [appendNodes_nilstack]
    simp
  show Except.ok (⟨finalize (assembleEvents none (eventsOfList ns) emptyState), none⟩
    : Document) = _
  rw [hasm]
  show Except.ok (⟨ns.reverse.reverse, none⟩ : Document) = _
  rw [List.reverse_reverse]

/-- Claim C1, counterexample: the stray close tag in `a</b>b` is
dropped, leaving two adjacent top-level text nodes; their serialization
`ab` re-parses as a single text node, so the re-parsed tree differs from
the first parse and the round-trip claim fails as stated for documents
with adjacent text siblings. -/
theorem c1_counterexample :
    parse "a</b>b" = .ok ⟨[Node.text "a", Node.text "b"], none⟩ ∧
    Document.decode ⟨[Node.text "a", Node.text "b"], none⟩ = "ab" ∧
    parse "ab" = .ok ⟨[Node.text "ab"], none⟩ ∧
    (⟨[Node.text "a", Node.text "b"], none⟩ : Document) ≠ ⟨[Node.text "ab"], none⟩ := by
  refine ⟨rfl, rfl, rfl, ?_⟩
  intro h
  injection h with h1 h2
  injection h1 with h3 h4
  injection h3 with h5
  exact absurd h5 (by decide)

/-- Claim C1 (amended: no adjacent text-node siblings): for every input
that parses without error into a document whose tree has no two adjacent
text-node siblings, re-parsing the document's serialization yields
exactly the same document (the `original_encoding` metadata of a text
parse being `none` on both sides). -/
theorem c1_roundtrip {s : String} {d : Document} (h : parse s = .ok d)
    (hadj : noAdjL d.contents = true) : parse d.decode = .ok d := by
  have hwf := parse_wf h
  have hoe : d.originalEncoding = none := by
    unfold parse parseWith at h
    rw [except_map_ok] at h
    obtain ⟨evs, hv, he⟩ := h
    rw [← he]
  have hcore := roundtrip_core hwf hadj
  show parseWith none (Document.decode d).toList = .ok d
  rw [show (Document.decode d).toList = renderNodes none d.contents from rfl, hcore]
  rcases d with ⟨dc, doe⟩
  rw [show (⟨dc, doe⟩ : Document).originalEncoding = doe from rfl] at hoe
  rw [hoe]

/-- Witness for C1: the parse of `<p>a</p>` round-trips through its
serialization. -/
theorem c1_witness :
    noAdjL (⟨[Node.element "p" [] false [Node.text "a"]], none⟩ : Document).contents = true ∧
    parse (Document.decode ⟨[Node.element "p" [] false [Node.text "a"]], none⟩)
      = .ok ⟨[Node.element "p" [] false [Node.text "a"]], none⟩ :=
  ⟨by decide, c1_roundtrip (s := "<p>a</p>") rfl (by decide)⟩

end BS
